import Mathlib

/-!
# Verification of the context-finder retrieval engine

Shallow embedding, in Lean 4, of the parts of the `context-finder` code base
that the specification's claims are about, together with proofs that settle
each claim.

Modelling conventions used throughout this development:

* Rust `f32` values are modelled by exact rationals (`ℚ`); a possibly
  non-finite `f32` (NaN/±∞) is modelled by `Option ℚ` with `none` standing
  for any non-finite value.  All concrete inputs used in counterexamples are
  chosen so that the `f32` arithmetic of the source is exact on them, so the
  rational model agrees with the floating-point code on those inputs.
* Rust `usize`/`u64` values are modelled by `Nat`; the quantities involved
  (list lengths, character counts, file sizes) never approach `2^64` in the
  scenarios considered, so wrap-around is irrelevant.
* External collaborators of the code (the embedding backend, the
  `nucleo-matcher` fuzzy scorer, the tree-sitter parser, the file system)
  are modelled as explicit function parameters ("oracles"), exactly as the
  specification designates them as out-of-scope interfaces.
* Code of the repository that is referenced but not present under `src/`
  (the `context-protocol` serialisation helpers, the query
  expander/classifier/reranker/profile of the `search` crate, the
  `CodeChunk` data type of the chunker crate) is modelled from the
  specification; each such definition carries a doc comment starting with
  `Modelled from the spec:`.
-/

namespace ContextFinder

/-! ## Index freshness (`src/crates/indexer/src/index_state.rs`) -/

/-- Project/index watermark, from `index_state.rs` (`enum Watermark`):
either a Git head fingerprint or a filesystem fingerprint. -/
inductive Watermark where
  | git (computedAtUnixMs : Option Nat) (gitHead : String) (gitDirty : Bool)
  | filesystem (computedAtUnixMs : Option Nat) (fileCount maxMtimeMs totalBytes : Nat)
  deriving DecidableEq, Repr

/-- Staleness reason, from `index_state.rs` (`enum StaleReason`). -/
inductive StaleReason where
  | indexMissing
  | indexCorrupt
  | watermarkMissing
  | gitHeadMismatch
  | gitDirtyMismatch
  | filesystemChanged
  deriving DecidableEq, Repr

/-- Result of a staleness assessment, from `index_state.rs`
(`struct StaleAssessment`). -/
structure StaleAssessment where
  stale : Bool
  reasons : List StaleReason
  deriving DecidableEq, Repr

/-- Translation of `assess_staleness` from `index_state.rs` lines 100-165:
reasons are pushed in program order (missing, corrupt, watermark cases),
and `stale` is set iff the reason list is non-empty. -/
def assessStaleness (projectWatermark : Watermark) (indexExists indexCorrupt : Bool)
    (indexWatermark : Option Watermark) : StaleAssessment :=
  let reasons : List StaleReason :=
    (if !indexExists then [StaleReason.indexMissing] else [])
    ++ (if indexCorrupt then [StaleReason.indexCorrupt] else [])
    ++ (match indexWatermark with
        | none => if indexExists then [StaleReason.watermarkMissing] else []
        | some indexMark =>
          match indexMark, projectWatermark with
          | Watermark.git _ idxHead idxDirty, Watermark.git _ curHead curDirty =>
            (if idxHead ≠ curHead then [StaleReason.gitHeadMismatch] else [])
            ++ (if idxDirty ≠ curDirty then [StaleReason.gitDirtyMismatch] else [])
          | Watermark.filesystem _ idxFiles idxMtime idxBytes,
            Watermark.filesystem _ curFiles curMtime curBytes =>
            if idxFiles ≠ curFiles ∨ idxMtime ≠ curMtime ∨ idxBytes ≠ curBytes then
              [StaleReason.filesystemChanged]
            else []
          | _, _ => [StaleReason.filesystemChanged])
  { stale := !reasons.isEmpty, reasons := reasons }

/-- Whether a watermark is the Git variant (used to state the "mixed kinds"
clause of the staleness case analysis). -/
def Watermark.isGit : Watermark → Bool
  | Watermark.git _ _ _ => true
  | Watermark.filesystem _ _ _ _ => false

/-- The specification's case analysis for when a given reason must be
reported, written from the spec's words (§4.5): `IndexMissing` iff the index
does not exist, `IndexCorrupt` iff it is corrupt, `WatermarkMissing` iff the
index exists but carries no watermark, the two Git mismatch reasons for
differing head/dirty fields of two Git watermarks, and `FilesystemChanged`
for two differing filesystem watermarks or mixed kinds. -/
def specReasonHolds (projectWatermark : Watermark) (indexExists indexCorrupt : Bool)
    (indexWatermark : Option Watermark) : StaleReason → Prop
  | StaleReason.indexMissing => indexExists = false
  | StaleReason.indexCorrupt => indexCorrupt = true
  | StaleReason.watermarkMissing => indexExists = true ∧ indexWatermark = none
  | StaleReason.gitHeadMismatch =>
      match indexWatermark, projectWatermark with
      | some (Watermark.git _ h₁ _), Watermark.git _ h₂ _ => h₁ ≠ h₂
      | _, _ => False
  | StaleReason.gitDirtyMismatch =>
      match indexWatermark, projectWatermark with
      | some (Watermark.git _ _ d₁), Watermark.git _ _ d₂ => d₁ ≠ d₂
      | _, _ => False
  | StaleReason.filesystemChanged =>
      match indexWatermark, projectWatermark with
      | some (Watermark.filesystem _ f₁ m₁ b₁), Watermark.filesystem _ f₂ m₂ b₂ =>
          f₁ ≠ f₂ ∨ m₁ ≠ m₂ ∨ b₁ ≠ b₂
      | some w, pw => w.isGit ≠ pw.isGit
      | none, _ => False

/-- C5: `assess_staleness` returns exactly the reasons of the spec's case
analysis — each reason appears at most once, a reason is present iff its
spec-side condition holds, and the stale flag is set iff the list of
reasons is non-empty. -/
theorem assess_staleness_matches_spec (pw : Watermark) (ie ic : Bool)
    (iw : Option Watermark) :
    ((assessStaleness pw ie ic iw).stale = true
        ↔ (assessStaleness pw ie ic iw).reasons ≠ [])
    ∧ (assessStaleness pw ie ic iw).reasons.Nodup
    ∧ ∀ r, r ∈ (assessStaleness pw ie ic iw).reasons ↔ specReasonHolds pw ie ic iw r := by
  refine ⟨?_, ?_, ?_⟩
  · simp [assessStaleness]
  · rcases iw with _ | iw
    · cases ie <;> cases ic <;> simp [assessStaleness]
    · cases ie <;> cases ic <;> rcases iw with ⟨c₁, h₁, d₁⟩ | ⟨c₁, f₁, m₁, b₁⟩ <;>
        rcases pw with ⟨c₂, h₂, d₂⟩ | ⟨c₂, f₂, m₂, b₂⟩ <;>
        simp [assessStaleness] <;> split_ifs <;> simp_all
  · intro r
    rcases iw with _ | iw
    · cases ie <;> cases ic <;> cases r <;>
        simp [assessStaleness, specReasonHolds, Watermark.isGit]
    · cases ie <;> cases ic <;> rcases iw with ⟨c₁, h₁, d₁⟩ | ⟨c₁, f₁, m₁, b₁⟩ <;>
        rcases pw with ⟨c₂, h₂, d₂⟩ | ⟨c₂, f₂, m₂, b₂⟩ <;> cases r <;>
        simp [assessStaleness, specReasonHolds, Watermark.isGit] <;>
        (try (split_ifs <;> simp_all)) <;> tauto

/-! ## Code chunks (data model)

`CodeChunk`/`ChunkMetadata`/`ChunkType` live in the `code-chunker` crate,
whose type definitions are not under `src/`. -/

/-- Modelled from the spec: `chunk_type ∈ {Function, Method, Class, Struct,
Enum, Interface, Variable, Const, Module, Doc, …}` (§3.1).  The open-ended
tail of the enumeration is irrelevant to the claims; `module` and `doc`
stand in for the kinds that fall into the catch-all branch of the AST
booster. -/
inductive ChunkType where
  | function | method | classType | structType | enumType | interfaceType
  | variable | const | moduleType | docType
  deriving DecidableEq, Repr

/-- Modelled from the spec: chunk metadata fields of §3.1
(`symbol_name?`, `qualified_name?`, `chunk_type`, `parent_scope?`,
`language?`, `context_imports`, `documentation?`, `tags`). -/
structure ChunkMetadata where
  symbolName : Option String := none
  qualifiedName : Option String := none
  chunkType : Option ChunkType := none
  parentScope : Option String := none
  language : Option String := none
  contextImports : List String := []
  documentation : Option String := none
  tags : List String := []
  deriving DecidableEq, Repr

/-- Modelled from the spec: `CodeChunk {file_path, start_line, end_line,
content, metadata}` (§3.1). -/
structure CodeChunk where
  filePath : String
  startLine : Nat
  endLine : Nat
  content : String
  metadata : ChunkMetadata
  deriving DecidableEq, Repr

/-- Chunk identity `file_path:start_line:end_line` (§3.1), as formatted at
the `format!("{}:{}:{}", …)` sites in `hybrid.rs` and `builder.rs`. -/
def CodeChunk.chunkId (c : CodeChunk) : String :=
  c.filePath ++ ":" ++ toString c.startLine ++ ":" ++ toString c.endLine

/-! ## Floating-point model

A finite `f32` value is modelled by an exact rational; a possibly
non-finite `f32` by `Option ℚ` (`none` = NaN/±∞).  The `f32` constants the
code compares against are given their exact rational values. -/

/-- Largest finite `f32` (`f32::MAX` = `(2^24 - 1)·2^104`), the seed of the
running minimum in `normalize_scores`. -/
def f32Max : ℚ := (2 ^ 24 - 1) * 2 ^ 104

/-- `f32::MIN` = `-f32::MAX`, the seed of the running maximum in
`normalize_scores`. -/
def f32Min : ℚ := -f32Max

/-- `f32::EPSILON` = `2^-23`, exactly. -/
def f32Eps : ℚ := 1 / 2 ^ 23

/-- The `f32` literal `1e-6` (`MIN_DELTA` in `hybrid.rs`): its exact value
as an IEEE-754 single is `8796093·2^-43`. -/
def minDelta : ℚ := 8796093 / 2 ^ 43

/-! ## Stable sorting

Rust's `sort_by` is a stable sort with respect to its comparator.  It is
modelled by a stable insertion sort: an element is placed before the first
element it need not follow, so equal elements keep their relative order. -/

/-- Insert `x` into `l`, before the first element `y` with `le x y`. -/
def insertStable {α : Type} (le : α → α → Bool) (x : α) : List α → List α
  | [] => [x]
  | y :: ys => if le x y then x :: y :: ys else y :: insertStable le x ys

/-- Stable sort by the boolean relation `le` (`le a b` = "`a` may come
before `b`"), modelling Rust's stable `sort_by`. -/
def sortByStable {α : Type} (le : α → α → Bool) : List α → List α
  | [] => []
  | x :: xs => insertStable le x (sortByStable le xs)

theorem mem_insertStable {α : Type} (le : α → α → Bool) (x : α) (l : List α) (a : α) :
    a ∈ insertStable le x l ↔ a = x ∨ a ∈ l := by
  induction l with
  | nil => simp [insertStable]
  | cons y ys ih =>
    by_cases h : le x y = true <;> simp [insertStable, h, ih] <;> tauto

theorem mem_sortByStable {α : Type} (le : α → α → Bool) (l : List α) (a : α) :
    a ∈ sortByStable le l ↔ a ∈ l := by
  induction l with
  | nil => simp [sortByStable]
  | cons x xs ih => simp [sortByStable, mem_insertStable, ih]

/-- The comparator `|a, b| b.partial_cmp(&a).unwrap_or(Equal)` used to sort
scored candidates descending, turned into the boolean "may come before"
relation of a stable sort: `a` may precede `b` unless `b`'s score is
strictly greater (comparisons involving a non-finite score are `Equal`). -/
def scoreDescLe : Option ℚ → Option ℚ → Bool
  | some x, some y => decide (y ≤ x)
  | _, _ => true

/-- Same descending comparator on plain (always finite) rational scores. -/
def scoreDescLeQ (x y : ℚ) : Bool := decide (y ≤ x)

/-! ## RRF fusion (`src/crates/search/src/fusion.rs`) -/

/-- Modelled from the spec: `QueryWeights {semantic, fuzzy,
candidate_multiplier}` produced by the query classifier (§4.8 step 3); the
classifier itself (`query_classifier.rs`, not under `src/`) is an oracle. -/
structure QueryWeights where
  semantic : ℚ
  fuzzy : ℚ
  candidateMultiplier : Nat
  deriving DecidableEq, Repr

/-- `struct RRFFusion { k, semantic_weight, fuzzy_weight }` from
`fusion.rs`. -/
structure RRFFusion where
  k : ℚ
  semanticWeight : ℚ
  fuzzyWeight : ℚ
  deriving DecidableEq, Repr

/-- `RRFFusion::default()` = `RRFFusion::new(0.8, 0.2, 60.0)`. -/
def RRFFusion.default : RRFFusion := ⟨60, 8 / 10, 2 / 10⟩

/-- `*scores.entry(idx).or_insert(0.0) += delta` on the score accumulator
(`HashMap<usize, f32>`), modelled as an association list in first-insertion
order (the map's real iteration order is unspecified; the claims are
settled on score-distinct inputs where the order is irrelevant). -/
def bumpScore (m : List (Nat × ℚ)) (idx : Nat) (delta : ℚ) : List (Nat × ℚ) :=
  match m with
  | [] => [(idx, delta)]
  | (i, s) :: rest =>
    if i = idx then (i, s + delta) :: rest else (i, s) :: bumpScore rest idx delta

/-- `RRFFusion::fuse_with_weights` (fusion.rs lines 74-100): add
`weight / (k + rank + 1)` per entry of each ranked list (`rank` 0-based),
then sort by fused score descending. -/
def fuseWithWeights (semanticResults fuzzyResults : List (Nat × ℚ))
    (semanticWeight fuzzyWeight k : ℚ) : List (Nat × ℚ) :=
  let scores := semanticResults.enum.foldl
    (fun m (e : Nat × Nat × ℚ) => bumpScore m e.2.1 (semanticWeight / (k + e.1 + 1))) []
  let scores := fuzzyResults.enum.foldl
    (fun m (e : Nat × Nat × ℚ) => bumpScore m e.2.1 (fuzzyWeight / (k + e.1 + 1))) scores
  sortByStable (fun a b => scoreDescLeQ a.2 b.2) scores

/-- `RRFFusion::fuse_adaptive` (fusion.rs lines 27-50): `adaptive_k = k + 40`
is computed once and passed as the single `k` of `fuse_with_weights`, so it
applies to BOTH the semantic and the fuzzy list (the query argument is used
only for logging). -/
def RRFFusion.fuseAdaptive (f : RRFFusion) (weights : QueryWeights)
    (semanticResults fuzzyResults : List (Nat × ℚ)) : List (Nat × ℚ) :=
  let adaptiveK := f.k + 40
  fuseWithWeights semanticResults fuzzyResults weights.semantic weights.fuzzy adaptiveK

/-- C1 (code bug): at the failing input — one semantic hit (chunk 0), one
fuzzy hit (chunk 1), classifier weights 0.6/0.4 — `fuse_adaptive` scores the
semantic entry `0.6 / (100 + 1) = 3/505`, i.e. it applies `adaptive_k =
k + 40 = 100` to the semantic list as well, whereas the claim (and the
code's own comment "Increase k for fuzzy part") dictates
`0.6 / (60 + 1) = 3/305` for the semantic list. -/
theorem fuse_adaptive_applies_adaptive_k_to_both_lists :
    RRFFusion.default.fuseAdaptive ⟨3 / 5, 2 / 5, 5⟩ [(0, 9 / 10)] [(1, 9 / 10)]
      = [(0, 3 / 505), (1, 2 / 505)]
    ∧ (3 / 505 : ℚ) ≠ (3 / 5) / (60 + 0 + 1) := by
  refine ⟨?_, by norm_num⟩
  norm_num [RRFFusion.fuseAdaptive, RRFFusion.default, fuseWithWeights, bumpScore,
    sortByStable, insertStable, scoreDescLeQ]

/-! ## Score normalization (`HybridSearch::normalize_scores`, hybrid.rs 338-403) -/

/-- `SearchResult {chunk, score, id}` as constructed by `HybridSearch`
(the `vector-store` crate's type of the same shape); `score` is a possibly
non-finite `f32`. -/
structure SearchResult where
  chunk : CodeChunk
  score : Option ℚ
  id : String
  deriving DecidableEq, Repr

/-- The finite scores of a result list, in order (the values the running
min/max of `normalize_scores` folds over). -/
def finiteScoresOf (results : List SearchResult) : List ℚ :=
  results.filterMap (·.score)

/-- The running minimum of `normalize_scores`: seeded with `f32::MAX` and
folded with `min` over the finite scores. -/
def minScoreOf (results : List SearchResult) : ℚ :=
  (finiteScoresOf results).foldl min f32Max

/-- The running maximum of `normalize_scores`: seeded with `f32::MIN` and
folded with `max` over the finite scores. -/
def maxScoreOf (results : List SearchResult) : ℚ :=
  (finiteScoresOf results).foldl max f32Min

/-- `HybridSearch::normalize_scores` (hybrid.rs lines 338-403).  Branches in
source order: empty input returned as-is; (the source's early return for a
non-finite running min/max is dead code — both seeds are finite and `min`/
`max` of finite values is finite — and is therefore not modelled;) if some
score was non-finite and the min-max spread is below `f32::EPSILON`, finite
scores become 1.0 and non-finite ones 0.0; if the spread is below
`MIN_DELTA = 1e-6`, every score becomes 1.0; otherwise non-finite scores
are replaced by the running minimum and everything is min-max normalized. -/
def normalizeScores (results : List SearchResult) : List SearchResult :=
  if results.isEmpty then results
  else
    let minScore := minScoreOf results
    let maxScore := maxScoreOf results
    let hadInvalid := results.any (·.score.isNone)
    if hadInvalid ∧ |maxScore - minScore| < f32Eps then
      results.map (fun r =>
        { r with score := some (if r.score.isSome then (1 : ℚ) else 0) })
    else if |maxScore - minScore| < minDelta then
      results.map (fun r => { r with score := some 1 })
    else
      let range := maxScore - minScore
      results.map (fun r =>
        let s := (r.score).getD minScore
        { r with score := some ((s - minScore) / range) })

theorem foldl_min_le_init (l : List ℚ) (init : ℚ) : l.foldl min init ≤ init := by
  induction l generalizing init with
  | nil => simp
  | cons x xs ih => exact le_trans (ih (min init x)) (min_le_left _ _)

theorem foldl_min_le_of_mem {l : List ℚ} {a : ℚ} (h : a ∈ l) (init : ℚ) :
    l.foldl min init ≤ a := by
  induction l generalizing init with
  | nil => simp at h
  | cons x xs ih =>
    rcases List.mem_cons.mp h with rfl | h
    · exact le_trans (foldl_min_le_init xs (min init a)) (min_le_right _ _)
    · exact ih h (min init x)

theorem le_foldl_max_init (l : List ℚ) (init : ℚ) : init ≤ l.foldl max init := by
  induction l generalizing init with
  | nil => simp
  | cons x xs ih => exact le_trans (le_max_left _ _) (ih (max init x))

theorem le_foldl_max_of_mem {l : List ℚ} {a : ℚ} (h : a ∈ l) (init : ℚ) :
    a ≤ l.foldl max init := by
  induction l generalizing init with
  | nil => simp at h
  | cons x xs ih =>
    rcases List.mem_cons.mp h with rfl | h
    · exact le_trans (le_max_right _ _) (le_foldl_max_init xs (max init a))
    · exact ih h (max init x)

theorem le_foldl_min (l : List ℚ) (init c : ℚ) (hc : c ≤ init) (h : ∀ x ∈ l, c ≤ x) :
    c ≤ l.foldl min init := by
  induction l generalizing init with
  | nil => simpa using hc
  | cons x xs ih =>
    exact ih (min init x) (le_min hc (h x (by simp))) fun y hy => h y (by simp [hy])

theorem foldl_max_le (l : List ℚ) (init c : ℚ) (hc : init ≤ c) (h : ∀ x ∈ l, x ≤ c) :
    l.foldl max init ≤ c := by
  induction l generalizing init with
  | nil => simpa using hc
  | cons x xs ih =>
    exact ih (max init x) (max_le hc (h x (by simp))) fun y hy => h y (by simp [hy])

theorem minScoreOf_le_of_some {results : List SearchResult} {r : SearchResult} {q : ℚ}
    (hr : r ∈ results) (hq : r.score = some q) :
    minScoreOf results ≤ q ∧ q ≤ maxScoreOf results := by
  have hmem : q ∈ finiteScoresOf results := by
    simp only [finiteScoresOf, List.mem_filterMap]
    exact ⟨r, hr, hq⟩
  exact ⟨foldl_min_le_of_mem hmem _, le_foldl_max_of_mem hmem _⟩

/-- C8 (amended): `normalize_scores` always produces finite scores in
`[0, 1]`; when every score is the same finite `f32` value they all become
`1.0`; and a non-finite score becomes `0` — except when the finite min-max
spread lies in the window `[f32::EPSILON, MIN_DELTA)`, in which case the
`MIN_DELTA` branch rewrites every score, the non-finite ones included, to
`1.0`. -/
theorem normalize_scores_bounds_and_guards (results : List SearchResult) :
    ((normalizeScores results).length = results.length)
    ∧ (∀ r ∈ normalizeScores results, ∃ q, r.score = some q ∧ 0 ≤ q ∧ q ≤ 1)
    ∧ ((∃ c, f32Min ≤ c ∧ c ≤ f32Max ∧ ∀ r ∈ results, r.score = some c) →
        ∀ r ∈ normalizeScores results, r.score = some 1)
    ∧ (∀ r ∈ results, r.score = none →
        ({ r with score := some (if f32Eps ≤ |maxScoreOf results - minScoreOf results|
              ∧ |maxScoreOf results - minScoreOf results| < minDelta
            then (1 : ℚ) else 0) } : SearchResult) ∈ normalizeScores results) := by
  by_cases hempty : results.isEmpty
  · rw [List.isEmpty_iff] at hempty
    subst hempty
    simp [normalizeScores]
  · have hne : (results.isEmpty = true) = False := by simp [hempty]
    refine ⟨?_, ?_, ?_, ?_⟩
    · simp only [normalizeScores, hne, if_false]
      split_ifs <;> simp
    · intro r hr
      simp only [normalizeScores, hne, if_false] at hr
      split_ifs at hr with h1 h2
      · rcases List.mem_map.mp hr with ⟨r₀, _, rfl⟩
        refine ⟨_, rfl, ?_, ?_⟩ <;> split_ifs <;> norm_num
      · rcases List.mem_map.mp hr with ⟨r₀, _, rfl⟩
        exact ⟨1, rfl, by norm_num, le_refl 1⟩
      · rcases List.mem_map.mp hr with ⟨r₀, hr₀, rfl⟩
        rcases hs : r₀.score with _ | q
        · refine ⟨0, by simp [hs], le_refl 0, by norm_num⟩
        · have hb := minScoreOf_le_of_some hr₀ hs
          have hd : (0 : ℚ) < minDelta := by norm_num [minDelta]
          have habs : |maxScoreOf results - minScoreOf results|
              = maxScoreOf results - minScoreOf results :=
            abs_of_nonneg (by linarith [hb.1, hb.2])
          have hrange : 0 < maxScoreOf results - minScoreOf results := by
            have := not_lt.mp h2
            rw [habs] at this
            linarith
          refine ⟨_, rfl, ?_, ?_⟩
          · apply div_nonneg _ hrange.le
            simp only [hs, Option.getD_some]
            linarith [hb.1]
          · rw [div_le_one hrange]
            simp only [hs, Option.getD_some]
            linarith [hb.2]
    · rintro ⟨c, hc1, hc2, hall⟩ r hr
      have hinv : results.any (·.score.isNone) = false := by
        simp only [List.any_eq_false]
        intro x hx
        simp [hall x hx]
      have hfin : ∀ x ∈ finiteScoresOf results, x = c := by
        intro x hx
        simp only [finiteScoresOf, List.mem_filterMap] at hx
        rcases hx with ⟨r₀, hr₀, hs⟩
        rw [hall r₀ hr₀] at hs
        exact (Option.some_inj.mp hs).symm
      obtain ⟨r₀, hr₀⟩ := List.exists_mem_of_ne_nil results (by simpa [List.isEmpty_iff] using hempty)
      have hminmax : minScoreOf results = c ∧ maxScoreOf results = c := by
        have hmem := minScoreOf_le_of_some hr₀ (hall r₀ hr₀)
        constructor
        · exact le_antisymm hmem.1 (le_foldl_min _ _ _ hc2 fun x hx => le_of_eq (hfin x hx).symm)
        · exact le_antisymm (foldl_max_le _ _ _ hc1 fun x hx => le_of_eq (hfin x hx)) hmem.2
      simp only [normalizeScores, hne, if_false] at hr
      split_ifs at hr with h1 h2
      · rw [hinv] at h1
        exact absurd h1.1 (by simp)
      · rcases List.mem_map.mp hr with ⟨r₁, _, rfl⟩
        rfl
      · exfalso
        apply h2
        rw [hminmax.1, hminmax.2]
        norm_num [minDelta]
    · intro r hr hscore
      have hinv : results.any (·.score.isNone) = true :=
        List.any_eq_true.mpr ⟨r, hr, by simp [hscore]⟩
      by_cases hA : |maxScoreOf results - minScoreOf results| < f32Eps
      · rw [if_neg fun hc => absurd hA (not_lt.mpr hc.1)]
        simp only [normalizeScores, hne, if_false]
        rw [if_pos ⟨hinv, hA⟩]
        refine List.mem_map.mpr ⟨r, hr, ?_⟩
        simp [hscore]
      · by_cases hB : |maxScoreOf results - minScoreOf results| < minDelta
        · rw [if_pos ⟨not_lt.mp hA, hB⟩]
          simp only [normalizeScores, hne, if_false]
          rw [if_neg fun hc => hA hc.2, if_pos hB]
          exact List.mem_map.mpr ⟨r, hr, rfl⟩
        · rw [if_neg fun hc => hB hc.2]
          simp only [normalizeScores, hne, if_false]
          rw [if_neg fun hc => hA hc.2, if_neg hB]
          refine List.mem_map.mpr ⟨r, hr, ?_⟩
          simp [hscore]

/-- C8 counterexample: on `[NaN, 0.0, 2^-21]` the finite spread `2^-21`
falls between `f32::EPSILON` and `MIN_DELTA`, so the `MIN_DELTA` branch
sets every score — the non-finite first one included — to `1.0`; the claim
says a non-finite score becomes `0`. -/
theorem normalize_scores_nonfinite_not_zero_counterexample :
    (normalizeScores
        [⟨⟨"a.rs", 1, 2, "x", {}⟩, none, "a.rs:1:2"⟩,
         ⟨⟨"a.rs", 3, 4, "y", {}⟩, some 0, "a.rs:3:4"⟩,
         ⟨⟨"a.rs", 5, 6, "z", {}⟩, some (1 / 2 ^ 21), "a.rs:5:6"⟩]).map (·.score)
      = [some 1, some 1, some 1] ∧ (1 : ℚ) ≠ 0 := by
  refine ⟨?_, by norm_num⟩
  norm_num [normalizeScores, minScoreOf, maxScoreOf, finiteScoresOf,
    List.filterMap_cons, min_def, max_def, f32Max, f32Min, f32Eps, minDelta]
  rw [abs_of_nonneg (by norm_num : (0 : ℚ) ≤ 1 / 2097152)]
  norm_num

/-- Witness for `normalize_scores_bounds_and_guards`: on a singleton list
with score `1/2` the all-equal clause yields `1.0`, and on a singleton
non-finite list the non-finite clause yields `0`. -/
theorem normalize_scores_bounds_and_guards_witness :
    (∃ c, f32Min ≤ c ∧ c ≤ f32Max
        ∧ ∀ r ∈ ([⟨⟨"w.rs", 1, 2, "x", {}⟩, some (1 / 2), "w.rs:1:2"⟩] : List SearchResult),
            r.score = some c)
    ∧ (∀ r ∈ normalizeScores [⟨⟨"w.rs", 1, 2, "x", {}⟩, some (1 / 2), "w.rs:1:2"⟩],
        r.score = some 1)
    ∧ (⟨⟨"n.rs", 1, 2, "y", {}⟩, some 0, "n.rs:1:2"⟩ : SearchResult)
        ∈ normalizeScores [⟨⟨"n.rs", 1, 2, "y", {}⟩, none, "n.rs:1:2"⟩] := by
  have hc : ∃ c, f32Min ≤ c ∧ c ≤ f32Max
      ∧ ∀ r ∈ ([⟨⟨"w.rs", 1, 2, "x", {}⟩, some (1 / 2), "w.rs:1:2"⟩] : List SearchResult),
          r.score = some c :=
    ⟨1 / 2, by norm_num [f32Min, f32Max], by norm_num [f32Max], by simp⟩
  refine ⟨hc, (normalize_scores_bounds_and_guards _).2.2.1 hc, ?_⟩
  have h := (normalize_scores_bounds_and_guards
      [⟨⟨"n.rs", 1, 2, "y", {}⟩, none, "n.rs:1:2"⟩]).2.2.2
      ⟨⟨"n.rs", 1, 2, "y", {}⟩, none, "n.rs:1:2"⟩ (by simp) rfl
  have hcond : ¬(f32Eps ≤ |maxScoreOf [⟨⟨"n.rs", 1, 2, "y", {}⟩, none, "n.rs:1:2"⟩]
        - minScoreOf [⟨⟨"n.rs", 1, 2, "y", {}⟩, none, "n.rs:1:2"⟩]|
      ∧ |maxScoreOf [⟨⟨"n.rs", 1, 2, "y", {}⟩, none, "n.rs:1:2"⟩]
        - minScoreOf [⟨⟨"n.rs", 1, 2, "y", {}⟩, none, "n.rs:1:2"⟩]| < minDelta) := by
    norm_num [maxScoreOf, minScoreOf, finiteScoresOf, f32Max, f32Min, f32Eps, minDelta]
  rw [if_neg hcond] at h
  exact h

/-! ## `$ref` resolution (`src/crates/batch-ref/src/lib.rs`)

`serde_json::Value` is modelled by `Json`; JSON objects are association
lists of distinct keys in order (serde's map never holds duplicate keys, so
`map.len()` is the entry count and `map.get` is first-match lookup).
Numbers are modelled by `ℚ`.  The Rust function recurses through values
found in the context, so it terminates only thanks to its depth cap; the
model makes the remaining depth (`fuel = MAX_DEPTH + 1 - depth`) the
structural recursion argument: `depth > MAX_DEPTH` is exactly `fuel = 0`
and every recursive call at `depth + 1` uses `fuel - 1`. -/

/-- JSON values (`serde_json::Value`). -/
inductive Json where
  | null
  | bool (b : Bool)
  | num (q : ℚ)
  | str (s : String)
  | arr (items : List Json)
  | obj (entries : List (String × Json))

/-- First-match lookup in a JSON object (`map.get(key)`). -/
def jLookup : List (String × Json) → String → Option Json
  | [], _ => none
  | (k, v) :: rest, key => if k = key then some v else jLookup rest key

/-- `Value::get` with a string index: key lookup on objects, `None` on
everything else (including arrays). -/
def jsonGet (v : Json) (key : String) : Option Json :=
  match v with
  | Json.obj entries => jLookup entries key
  | _ => none

/-- Rust's `{:?}` debug formatting of a string as it appears inside the
resolver's error messages; exact for strings without escape-needing
characters, which is all the claims use. -/
def dbgQuote (s : String) : String := "\"" ++ s ++ "\""

/-- `decode_pointer_token`'s character loop: `~0 → ~`, `~1 → /`, any other
`~`-escape is an error. -/
def decodeChars : List Char → Except String (List Char)
  | [] => Except.ok []
  | '~' :: rest =>
    match rest with
    | '0' :: rest' => (decodeChars rest').map (fun cs => '~' :: cs)
    | '1' :: rest' => (decodeChars rest').map (fun cs => '/' :: cs)
    | other :: _ => Except.error ("Invalid JSON pointer escape '~" ++ String.mk [other] ++ "'")
    | [] => Except.error "Invalid JSON pointer escape '~'"
  | c :: rest => (decodeChars rest).map (fun cs => c :: cs)

/-- `decode_pointer_token` (lib.rs lines 3-19). -/
def decodePointerToken (token : String) : Except String String :=
  (decodeChars token.toList).map String.mk

/-- `str.split(sep)` on characters, as a structural function (segments
between separator occurrences; leading separator yields an empty first
segment, as in Rust). -/
def splitCharAux (sep : Char) : List Char → List Char → List (List Char)
  | [], acc => [acc.reverse]
  | c :: rest, acc =>
    if c = sep then acc.reverse :: splitCharAux sep rest []
    else splitCharAux sep rest (c :: acc)

/-- `str.split(sep)` as a list of strings. -/
def splitChar (sep : Char) (s : String) : List String :=
  (splitCharAux sep s.toList []).map String.mk

/-- Whether a string starts with the character `c` (`starts_with('#')`,
`starts_with('/')`). -/
def startsWithChar (c : Char) (s : String) : Bool :=
  match s.toList with
  | [] => false
  | x :: _ => x = c

/-- The remainder of a string after its first character
(`strip_prefix('#')`'s payload). -/
def dropFirstChar (s : String) : String := String.mk (s.toList.drop 1)

/-- Map a fallible function over a list, stopping at the first error (the
`for`-loop-with-`?` pattern of the source). -/
def exceptMapList {α β : Type} (f : α → Except String β) : List α → Except String (List β)
  | [] => Except.ok []
  | x :: xs =>
    match f x with
    | Except.error e => Except.error e
    | Except.ok y =>
      match exceptMapList f xs with
      | Except.error e => Except.error e
      | Except.ok ys => Except.ok (y :: ys)

/-- The token-walking loop of `resolve_json_pointer` (lib.rs lines 52-74);
`p` is the (`#`-stripped) pointer used in error messages.  `usize` parsing
of an array index is modelled by `String.toNat?`. -/
def walkPointer (p : String) : Json → List String → Except String Json
  | current, [] => Except.ok current
  | current, token :: rest =>
    match current with
    | Json.obj entries =>
      match jLookup entries token with
      | some next => walkPointer p next rest
      | none =>
        Except.error ("$ref path " ++ dbgQuote p ++ " not found at key " ++ dbgQuote token)
    | Json.arr items =>
      match token.toNat? with
      | some idx =>
        match items[idx]? with
        | some next => walkPointer p next rest
        | none =>
          Except.error ("$ref path " ++ dbgQuote p ++ " array index out of bounds: "
            ++ toString idx)
      | none =>
        Except.error ("$ref path " ++ dbgQuote p ++ " expected array index, got "
          ++ dbgQuote token)
    | _ =>
      Except.error ("$ref path " ++ dbgQuote p ++ " reached non-container before token "
        ++ dbgQuote token)

/-- `resolve_json_pointer` (lib.rs lines 21-77): strip a leading `#`, empty
pointer returns the root, otherwise the pointer must start with `/`; decode
the tokens; if the path has the shape `items/<id>/data/…` and that item has
`status == "error"`, fail with the failed-item message; otherwise walk the
tokens. -/
def resolveJsonPointer (root : Json) (pointer : String) : Except String Json :=
  let p := if startsWithChar '#' pointer then dropFirstChar pointer else pointer
  if p = "" then Except.ok root
  else if ¬ startsWithChar '/' p then
    Except.error ("$ref must be a JSON pointer starting with '#/' or '/': got " ++ dbgQuote p)
  else
    match exceptMapList decodePointerToken ((splitChar '/' p).drop 1) with
    | Except.error e => Except.error e
    | Except.ok tokens =>
      let failedCheck : Except String Unit :=
        match tokens with
        | t0 :: t1 :: t2 :: _ =>
          if t0 = "items" ∧ t2 = "data" then
            match (jsonGet root "items").bind (fun v => jsonGet v t1) with
            | some item =>
              let isErrorItem : Bool :=
                match jsonGet item "status" with
                | some (Json.str s) => s == "error"
                | _ => false
              if isErrorItem then
                let msg := match jsonGet item "message" with
                  | some (Json.str m) => m
                  | _ => "unknown error"
                Except.error ("$ref points to failed item '" ++ t1 ++ "': " ++ msg)
              else Except.ok ()
            | none => Except.ok ()
          else Except.ok ()
        | _ => Except.ok ()
      match failedCheck with
      | Except.error e => Except.error e
      | Except.ok _ => walkPointer p root tokens

/-- The `is_ref_wrapper` test of `resolve_inner` (lib.rs lines 97-99):
a `$ref` key, and either a single entry or exactly two entries with a
`$default`. -/
def isRefWrapperShape (entries : List (String × Json)) : Bool :=
  (jLookup entries "$ref").isSome
    && (entries.length == 1 || (entries.length == 2 && (jLookup entries "$default").isSome))

/-- `resolve_inner` (lib.rs lines 79-126), with the remaining depth as
fuel (`MAX_DEPTH = 64`; the source checks `depth > MAX_DEPTH` on entry and
recurses at `depth + 1`, i.e. `fuel = 0` errors and every recursion uses
`fuel - 1`): arrays and non-wrapper objects are resolved element-wise, a
ref wrapper resolves its pointer in `ctx` — falling back to the `$default`
on any pointer error — and scalars are returned unchanged. -/
def resolveInner : Nat → Json → Json → Except String Json
  | 0, _, _ => Except.error "Ref resolution exceeded max depth"
  | Nat.succ fuel, value, ctx =>
    match value with
    | Json.arr items =>
      (exceptMapList (fun item => resolveInner fuel item ctx) items).map Json.arr
    | Json.obj entries =>
      if isRefWrapperShape entries then
        match jLookup entries "$ref" with
        | some (Json.str pointer) =>
          match resolveJsonPointer ctx pointer with
          | Except.ok found => resolveInner fuel found ctx
          | Except.error err =>
            match jLookup entries "$default" with
            | some d => resolveInner fuel d ctx
            | none => Except.error err
        | _ => Except.error "$ref must be a string"
      else
        (exceptMapList (fun kv => (resolveInner fuel kv.2 ctx).map (fun v => (kv.1, v)))
          entries).map Json.obj
    | other => Except.ok other

/-- `resolve_batch_refs` (lib.rs lines 128-133): `resolve_inner` at depth
0, i.e. fuel `MAX_DEPTH + 1 = 65`. -/
def resolveBatchRefs (input ctx : Json) : Except String Json :=
  resolveInner 65 input ctx

/-- The context used by the C7 scenarios: a batch context whose item `j1`
failed with message `msg`. -/
def failedItemCtx (msg : String) : Json :=
  Json.obj [("items", Json.obj [("j1",
    Json.obj [("status", Json.str "error"), ("message", Json.str msg), ("data", Json.null)])])]

/-- C7: a `$ref` wrapper whose pointer traverses `items/j1/data` for the
failed item `j1` errors with `$ref points to failed item 'j1': <msg>`; with
a `$default` the default value is produced instead; and a pointer to a
missing key with `$default: 42` also resolves to `42`. -/
theorem ref_to_failed_item_and_default_fallback (msg : String) :
    (resolveBatchRefs (Json.obj [("q", Json.obj [("$ref", Json.str "#/items/j1/data")])])
        (failedItemCtx msg)
      = Except.error ("$ref points to failed item 'j1': " ++ msg))
    ∧ (resolveBatchRefs (Json.obj [("q", Json.obj [("$ref", Json.str "#/items/j1/data"),
          ("$default", Json.num 42)])]) (failedItemCtx msg)
      = Except.ok (Json.obj [("q", Json.num 42)]))
    ∧ (resolveBatchRefs (Json.obj [("q", Json.obj [("$ref", Json.str "#/missing"),
          ("$default", Json.num 42)])]) (failedItemCtx msg)
      = Except.ok (Json.obj [("q", Json.num 42)])) := by
  refine ⟨?_, ?_, ?_⟩ <;> rfl

/-- A payload that contains no `$ref` wrapper object anywhere: no
sub-object satisfies the source's `is_ref_wrapper` test. -/
inductive NoRefWrapper : Json → Prop where
  | null : NoRefWrapper Json.null
  | bool (b : Bool) : NoRefWrapper (Json.bool b)
  | num (q : ℚ) : NoRefWrapper (Json.num q)
  | str (s : String) : NoRefWrapper (Json.str s)
  | arr (items : List Json) (h : ∀ x ∈ items, NoRefWrapper x) :
      NoRefWrapper (Json.arr items)
  | obj (entries : List (String × Json)) (hshape : isRefWrapperShape entries = false)
      (h : ∀ kv ∈ entries, NoRefWrapper kv.2) : NoRefWrapper (Json.obj entries)

/-- `FitsDepth fuel v`: resolving `v` with `fuel` remaining depth never
reaches the cap — every value of `v` sits strictly above fuel `0`. -/
inductive FitsDepth : Nat → Json → Prop where
  | null (n : Nat) : FitsDepth (n + 1) Json.null
  | bool (n : Nat) (b : Bool) : FitsDepth (n + 1) (Json.bool b)
  | num (n : Nat) (q : ℚ) : FitsDepth (n + 1) (Json.num q)
  | str (n : Nat) (s : String) : FitsDepth (n + 1) (Json.str s)
  | arr (n : Nat) (items : List Json) (h : ∀ x ∈ items, FitsDepth n x) :
      FitsDepth (n + 1) (Json.arr items)
  | obj (n : Nat) (entries : List (String × Json)) (h : ∀ kv ∈ entries, FitsDepth n kv.2) :
      FitsDepth (n + 1) (Json.obj entries)

theorem exceptMapList_ok_id {α : Type} (f : α → Except String α) (l : List α)
    (h : ∀ x ∈ l, f x = Except.ok x) : exceptMapList f l = Except.ok l := by
  induction l with
  | nil => rfl
  | cons x xs ih =>
    simp only [exceptMapList, h x (by simp), ih fun y hy => h y (by simp [hy])]

theorem resolveInner_noop (ctx : Json) (fuel : Nat) (v : Json)
    (hnr : NoRefWrapper v) (hfit : FitsDepth fuel v) :
    resolveInner fuel v ctx = Except.ok v := by
  induction hfit with
  | null n => rfl
  | bool n b => rfl
  | num n q => rfl
  | str n s => rfl
  | arr n items h ih =>
    cases hnr with
    | arr _ hchildren =>
      have : exceptMapList (fun item => resolveInner n item ctx) items = Except.ok items :=
        exceptMapList_ok_id _ _ fun x hx => ih x hx (hchildren x hx)
      simp [resolveInner, this, Except.map]
  | obj n entries h ih =>
    cases hnr with
    | obj _ hshape hvals =>
      have : exceptMapList
          (fun kv => (resolveInner n kv.2 ctx).map (fun v => (kv.1, v))) entries
          = Except.ok entries := by
        apply exceptMapList_ok_id
        intro kv hkv
        rw [ih kv hkv (hvals kv hkv)]
        rfl
      simp only [resolveInner, hshape, Bool.false_eq_true, if_false, this]
      rfl

/-- C9 (amended): on a payload with no `$ref` wrapper anywhere whose
nesting stays within the resolver's `MAX_DEPTH = 64` cap (fuel 65 at the
root), `resolve_batch_refs` returns the payload unchanged — hence resolving
twice equals resolving once on such payloads. -/
theorem resolve_batch_refs_identity_on_resolved (v ctx : Json)
    (h1 : NoRefWrapper v) (h2 : FitsDepth 65 v) :
    resolveBatchRefs v ctx = Except.ok v :=
  resolveInner_noop ctx 65 v h1 h2

/-- Witness for `resolve_batch_refs_identity_on_resolved` at a small
concrete ref-free payload. -/
theorem resolve_batch_refs_identity_witness :
    NoRefWrapper (Json.obj [("a", Json.num 1), ("b", Json.arr [Json.str "x"])])
    ∧ FitsDepth 65 (Json.obj [("a", Json.num 1), ("b", Json.arr [Json.str "x"])])
    ∧ resolveBatchRefs (Json.obj [("a", Json.num 1), ("b", Json.arr [Json.str "x"])]) Json.null
      = Except.ok (Json.obj [("a", Json.num 1), ("b", Json.arr [Json.str "x"])]) := by
  have h1 : NoRefWrapper (Json.obj [("a", Json.num 1), ("b", Json.arr [Json.str "x"])]) := by
    apply NoRefWrapper.obj
    · rfl
    · intro kv hkv
      simp only [List.mem_cons, List.not_mem_nil, or_false] at hkv
      rcases hkv with rfl | rfl
      · exact NoRefWrapper.num 1
      · apply NoRefWrapper.arr
        intro x hx
        simp only [List.mem_singleton] at hx
        subst hx
        exact NoRefWrapper.str "x"
  have h2 : FitsDepth 65 (Json.obj [("a", Json.num 1), ("b", Json.arr [Json.str "x"])]) := by
    apply FitsDepth.obj
    intro kv hkv
    simp only [List.mem_cons, List.not_mem_nil, or_false] at hkv
    rcases hkv with rfl | rfl
    · exact FitsDepth.num 63 1
    · apply FitsDepth.arr
      intro x hx
      simp only [List.mem_singleton] at hx
      subst hx
      exact FitsDepth.str 62 "x"
  exact ⟨h1, h2, resolve_batch_refs_identity_on_resolved _ _ h1 h2⟩

/-- A payload of `n` nested singleton arrays around `null`. -/
def nestedArr : Nat → Json
  | 0 => Json.null
  | n + 1 => Json.arr [nestedArr n]

theorem noRefWrapper_nestedArr (n : Nat) : NoRefWrapper (nestedArr n) := by
  induction n with
  | zero => exact NoRefWrapper.null
  | succ n ih =>
    apply NoRefWrapper.arr
    intro x hx
    simp only [nestedArr, List.mem_singleton] at hx
    subst hx
    exact ih

/-- C9 counterexample: a `$ref`-free payload of 66 nested values (65 nested
arrays around `null`) makes `resolve_batch_refs` return the max-depth
error instead of the unchanged payload — the claim's unconditional
idempotence fails once nesting exceeds `MAX_DEPTH = 64`. -/
theorem resolve_batch_refs_depth_overflow_counterexample :
    NoRefWrapper (nestedArr 65)
    ∧ resolveBatchRefs (nestedArr 65) Json.null
      = Except.error "Ref resolution exceeded max depth" := by
  exact ⟨noRefWrapper_nestedArr 65, by rfl⟩

/-! ## Symbol graph (`src/crates/graph/src/{builder,graph,assembler}.rs`)

The crate's `types.rs` (the `CodeGraph`/`GraphNode`/`Symbol` definitions)
is not under `src/`; those data types are modelled from the spec (§3.1):
the graph is an arena of nodes plus a separate edge list, `find_node`
returns the first node (insertion order) with the given symbol name.
petgraph's edge-iteration order is unspecified for consumers; the model
iterates edges in insertion order (the claims settled here are
order-insensitive).  The tree-sitter call/type extraction is the external
parser and enters as two oracle functions. -/

/-- Edge relationship kinds (`RelationshipType`). -/
inductive RelationshipType where
  | calls | uses | contains | extends | imports | testedBy
  deriving DecidableEq, Repr

/-- Modelled from the spec: symbol kinds used by the builder
(`SymbolType`; everything unlisted maps to `Function`). -/
inductive SymbolType where
  | function | method | classSym | structSym | variableSym
  deriving DecidableEq, Repr

/-- Modelled from the spec: `Symbol {name, qualified_name?, file_path,
start_line, end_line, kind}` (§3.1). -/
structure Symbol where
  name : String
  qualifiedName : Option String
  filePath : String
  startLine : Nat
  endLine : Nat
  symbolType : SymbolType
  deriving DecidableEq, Repr

/-- Modelled from the spec: `GraphNode {symbol, chunk_id, chunk?}` (§3.1). -/
structure GraphNode where
  symbol : Symbol
  chunkId : String
  chunk : Option CodeChunk
  deriving DecidableEq, Repr

/-- `GraphEdge {relationship, weight}`. -/
structure GraphEdge where
  relationship : RelationshipType
  weight : ℚ
  deriving DecidableEq, Repr

/-- Modelled from the spec: the graph as an arena of nodes and a separate
edge list `(source, target, edge)` (§9 design note); node indices are
positions in the arena. -/
structure CodeGraph where
  nodes : List GraphNode
  edges : List (Nat × Nat × GraphEdge)
  deriving DecidableEq, Repr

def CodeGraph.addNode (g : CodeGraph) (n : GraphNode) : CodeGraph :=
  { g with nodes := g.nodes ++ [n] }

def CodeGraph.addEdge (g : CodeGraph) (src dst : Nat) (e : GraphEdge) : CodeGraph :=
  { g with edges := g.edges ++ [(src, dst, e)] }

/-- Index of the first node with the given symbol name, counting from `i`. -/
def findNodeAux (name : String) : List GraphNode → Nat → Option Nat
  | [], _ => none
  | n :: rest, i => if n.symbol.name = name then some i else findNodeAux name rest (i + 1)

/-- `find_node(name)`: the first node, in insertion order, whose symbol
name matches. -/
def CodeGraph.findNode (g : CodeGraph) (name : String) : Option Nat :=
  findNodeAux name g.nodes 0

def CodeGraph.getNode (g : CodeGraph) (idx : Nat) : Option GraphNode :=
  g.nodes[idx]?

/-- `GraphBuilder::extract_symbol` (builder.rs lines 110-137): the symbol
name falls back to `"unknown"` when the chunk has no `symbol_name`, and the
chunk type maps onto the symbol kind with `Function` as the default. -/
def extractSymbol (chunk : CodeChunk) : Symbol :=
  let symbolName := chunk.metadata.symbolName.getD "unknown"
  let symbolType := match chunk.metadata.chunkType with
    | none => SymbolType.function
    | some ct => match ct with
      | ChunkType.method => SymbolType.method
      | ChunkType.classType => SymbolType.classSym
      | ChunkType.structType => SymbolType.structSym
      | ChunkType.variable => SymbolType.variableSym
      | _ => SymbolType.function
  { name := symbolName
    qualifiedName := chunk.metadata.qualifiedName
    filePath := chunk.filePath
    startLine := chunk.startLine
    endLine := chunk.endLine
    symbolType := symbolType }

/-- The node phase-1 of the builder creates for a chunk. -/
def nodeOfChunk (chunk : CodeChunk) : GraphNode :=
  { symbol := extractSymbol chunk, chunkId := chunk.chunkId, chunk := some chunk }

/-- The `chunk_to_node` `HashMap` after phase 1: a later chunk with the
same id overwrites an earlier one, so lookup returns the last matching
index. -/
def chunkToNodeIdx (chunks : List CodeChunk) (cid : String) : Option Nat :=
  chunks.enum.foldl (fun acc e => if e.2.chunkId = cid then some e.1 else acc) none

/-- `GraphBuilder::build` (builder.rs lines 43-107), with the tree-sitter
call/type extraction as oracles `extractCalls`/`extractTypes` (per-chunk
parse failures of the external parser are out of scope, so the oracles are
total): phase 1 adds one node for EVERY chunk (there is no symbol-name
filter — a chunk without one gets the `"unknown"` placeholder), phase 2
adds a `Calls` (weight 1.0) edge per extracted callee resolving via
`find_node`, then a `Uses` (weight 0.5) edge per extracted type.
`buildEdgeStep` is the phase-2 loop body for one chunk. -/
def buildEdgeStep (extractCalls extractTypes : CodeChunk → List String)
    (chunks : List CodeChunk) (g : CodeGraph) (chunk : CodeChunk) : CodeGraph :=
  match chunkToNodeIdx chunks chunk.chunkId with
  | none => g
  | some fromIdx =>
    let g := (extractCalls chunk).foldl (fun g calledSymbol =>
      match g.findNode calledSymbol with
      | some toIdx => g.addEdge fromIdx toIdx ⟨RelationshipType.calls, 1⟩
      | none => g) g
    (extractTypes chunk).foldl (fun g typeName =>
      match g.findNode typeName with
      | some toIdx => g.addEdge fromIdx toIdx ⟨RelationshipType.uses, 1 / 2⟩
      | none => g) g

/-- `GraphBuilder::build`: phase 1 (nodes for every chunk) followed by the
phase-2 edge fold. -/
def graphBuild (extractCalls extractTypes : CodeChunk → List String)
    (chunks : List CodeChunk) : CodeGraph :=
  let g0 : CodeGraph :=
    chunks.foldl (fun g chunk => g.addNode (nodeOfChunk chunk)) ⟨[], []⟩
  chunks.foldl (buildEdgeStep extractCalls extractTypes chunks) g0

theorem foldl_preserves_nodes {α : Type} (f : CodeGraph → α → CodeGraph)
    (hf : ∀ g a, (f g a).nodes = g.nodes) (l : List α) (g : CodeGraph) :
    (l.foldl f g).nodes = g.nodes := by
  induction l generalizing g with
  | nil => rfl
  | cons x xs ih => rw [List.foldl_cons, ih, hf]

theorem nodes_after_addNode_fold (chunks : List CodeChunk) (g : CodeGraph) :
    (chunks.foldl (fun g chunk => g.addNode (nodeOfChunk chunk)) g).nodes
      = g.nodes ++ chunks.map nodeOfChunk := by
  induction chunks generalizing g with
  | nil => simp
  | cons c cs ih =>
    rw [List.foldl_cons, ih]
    simp [CodeGraph.addNode]

theorem buildEdgeStep_nodes (extractCalls extractTypes : CodeChunk → List String)
    (chunks : List CodeChunk) (g : CodeGraph) (chunk : CodeChunk) :
    (buildEdgeStep extractCalls extractTypes chunks g chunk).nodes = g.nodes := by
  unfold buildEdgeStep
  cases chunkToNodeIdx chunks chunk.chunkId with
  | none => rfl
  | some fromIdx =>
    simp only []
    rw [foldl_preserves_nodes, foldl_preserves_nodes]
    · intro g a
      cases g.findNode a with
      | none => rfl
      | some toIdx => rfl
    · intro g a
      cases g.findNode a with
      | none => rfl
      | some toIdx => rfl

/-- C3 (amended): `GraphBuilder::build` creates exactly one node per chunk
— in chunk order, with the `"unknown"` placeholder symbol when the chunk
carries no symbol name — regardless of whether a `symbol_name` is present. -/
theorem graph_build_one_node_per_chunk
    (extractCalls extractTypes : CodeChunk → List String) (chunks : List CodeChunk) :
    (graphBuild extractCalls extractTypes chunks).nodes = chunks.map nodeOfChunk := by
  unfold graphBuild
  rw [foldl_preserves_nodes _ (buildEdgeStep_nodes extractCalls extractTypes chunks),
    nodes_after_addNode_fold]
  rfl

/-- C3 counterexample: a single chunk with no `symbol_name` still
contributes one graph node (with placeholder name `"unknown"`); the claim
says such a chunk contributes no node, i.e. this graph should have been
empty. -/
theorem graph_build_node_without_symbol_counterexample :
    ((graphBuild (fun _ => []) (fun _ => [])
        [⟨"a.rs", 1, 3, "let x = 1;", {}⟩]).nodes.map (fun n => n.symbol.name)
      = ["unknown"])
    ∧ (⟨"a.rs", 1, 3, "let x = 1;", {}⟩ : CodeChunk).metadata.symbolName = none
    ∧ (graphBuild (fun _ => []) (fun _ => [])
        [⟨"a.rs", 1, 3, "let x = 1;", {}⟩]).nodes.length ≠ 0 := by
  refine ⟨rfl, rfl, by decide⟩

/-! ### Related-node traversal (`CodeGraph::get_related_nodes`, graph.rs 49-83)

The Rust loop pops from the end of a `Vec` (LIFO); the model's worklist
keeps the top of the stack at the head of the list, so "push all outgoing
edges" prepends the pushed entries in reverse.  Termination: each iteration
either shortens the worklist without touching `visited`, or marks a
previously unvisited node as visited; nodes with outgoing edges all appear
among the edge sources, so the pair (number of unvisited edge sources,
worklist length) decreases lexicographically. -/

theorem length_filter_le_of_imp {α : Type} (l : List α) (p q : α → Bool)
    (h : ∀ x, p x = true → q x = true) :
    (l.filter p).length ≤ (l.filter q).length := by
  induction l with
  | nil => simp
  | cons x xs ih =>
    simp only [List.filter_cons]
    cases hp : p x
    · cases hq : q x
      · simpa using ih
      · simpa using Nat.le_succ_of_le ih
    · rw [h x hp]
      simpa using Nat.succ_le_succ ih

theorem length_filter_lt_of_imp {α : Type} (l : List α) (p q : α → Bool)
    (h : ∀ x, p x = true → q x = true) (c : α) (hc : c ∈ l)
    (hpc : p c = false) (hqc : q c = true) :
    (l.filter p).length < (l.filter q).length := by
  induction l with
  | nil => cases hc
  | cons x xs ih =>
    rcases List.mem_cons.mp hc with rfl | hc'
    · simp only [List.filter_cons, hpc, hqc]
      simpa using Nat.lt_succ_of_le (length_filter_le_of_imp xs p q h)
    · simp only [List.filter_cons]
      cases hp : p x
      · cases hq : q x
        · simpa using ih hc'
        · simpa using Nat.lt_succ_of_lt (ih hc')
      · rw [h x hp]
        simpa using Nat.succ_lt_succ (ih hc')

theorem length_filter_notMem_cons_le (U v : List Nat) (c : Nat) :
    (U.filter (fun s => decide (s ∉ c :: v))).length
      ≤ (U.filter (fun s => decide (s ∉ v))).length := by
  apply length_filter_le_of_imp
  intro x hx
  simp only [decide_eq_true_eq, List.mem_cons, not_or] at *
  exact hx.2

theorem length_filter_notMem_cons_eq (U v : List Nat) (c : Nat) (hU : c ∉ U) :
    U.filter (fun s => decide (s ∉ c :: v)) = U.filter (fun s => decide (s ∉ v)) := by
  apply List.filter_congr
  intro x hx
  have hxc : x ≠ c := fun h => hU (h ▸ hx)
  simp [List.mem_cons, hxc]

theorem length_filter_notMem_cons_lt (U v : List Nat) (c : Nat) (hU : c ∈ U) (hv : c ∉ v) :
    (U.filter (fun s => decide (s ∉ c :: v))).length
      < (U.filter (fun s => decide (s ∉ v))).length := by
  apply length_filter_lt_of_imp _ _ _ _ c hU
  · simp
  · simpa using hv
  · intro x hx
    simp only [decide_eq_true_eq, List.mem_cons, not_or] at *
    exact hx.2

/-- One traversal entry: `(node index, depth, relationship path)`. -/
abbrev RelatedEntry := Nat × Nat × List RelationshipType

/-- The `while let Some((current, depth, path)) = queue.pop()` loop of
`get_related_nodes`: skip entries beyond `max_depth` or already visited;
otherwise mark visited, record the entry (unless it is the start node),
and — while below `max_depth` — push every outgoing edge whose target is
not yet visited, with the edge's relationship appended to the path. -/
def relatedLoop (g : CodeGraph) (node maxDepth : Nat) :
    List RelatedEntry → List Nat → List RelatedEntry → List RelatedEntry
  | [], _visited, result => result
  | (current, depth, path) :: rest, visited, result =>
    if depth > maxDepth ∨ current ∈ visited then
      relatedLoop g node maxDepth rest visited result
    else
      let visited' := current :: visited
      let result' := if current ≠ node then result ++ [(current, depth, path)] else result
      if depth < maxDepth then
        let pushes := ((g.edges.filter
            (fun e => decide (e.1 = current ∧ e.2.1 ∉ visited'))).map
          (fun e => ((e.2.1, depth + 1, path ++ [e.2.2.relationship]) : RelatedEntry)))
        relatedLoop g node maxDepth (pushes.reverse ++ rest) visited' result'
      else
        relatedLoop g node maxDepth rest visited' result'
  termination_by queue visited _ =>
    (((g.edges.map (fun e => e.1)).filter (fun s => decide (s ∉ visited))).length,
      queue.length)
  decreasing_by
    · apply Prod.Lex.right
      simp
    · by_cases hcU : current ∈ g.edges.map (fun e => e.1)
      · apply Prod.Lex.left
        apply length_filter_notMem_cons_lt _ _ _ hcU
        simp at *
        tauto
      · have hempty : g.edges.filter
            (fun e => decide (e.1 = current ∧ e.2.1 ∉ current :: visited)) = [] := by
          rw [List.filter_eq_nil_iff]
          intro e he
          simp only [decide_eq_true_eq, not_and]
          intro hsrc
          exact absurd (List.mem_map.mpr ⟨e, he, hsrc⟩) hcU
        rw [length_filter_notMem_cons_eq _ _ _ hcU]
        apply Prod.Lex.right
        simp only [List.length_append, List.length_reverse, List.length_map, List.length_cons,
          hempty, List.length_nil]
        omega
    · rcases Nat.lt_or_ge
          (((g.edges.map (fun e => e.1)).filter
            (fun s => decide (s ∉ current :: visited))).length)
          (((g.edges.map (fun e => e.1)).filter
            (fun s => decide (s ∉ visited))).length) with hlt | hge
      · exact Prod.Lex.left _ _ hlt
      · have hle := length_filter_notMem_cons_le (g.edges.map (fun e => e.1)) visited current
        have heq : ((g.edges.map (fun e => e.1)).filter
              (fun s => decide (s ∉ current :: visited))).length
            = ((g.edges.map (fun e => e.1)).filter
              (fun s => decide (s ∉ visited))).length := le_antisymm hle hge
        rw [heq]
        apply Prod.Lex.right
        simp

/-- `get_related_nodes(node, max_depth)`: run the worklist loop from the
start node at depth 0 with an empty path. -/
def getRelatedNodes (g : CodeGraph) (node maxDepth : Nat) : List RelatedEntry :=
  relatedLoop g node maxDepth [(node, 0, [])] [] []

/-- Worklist invariant of the traversal: every recorded related entry has
a relationship path exactly as long as its distance, and distance at least
1 (the start node itself is never recorded). -/
theorem relatedLoop_result_inv (g : CodeGraph) (node maxDepth : Nat) :
    ∀ (queue : List RelatedEntry) (visited : List Nat) (result : List RelatedEntry),
      (∀ e ∈ queue, e.2.2.length = e.2.1 ∧ (e.2.1 = 0 → e.1 = node)) →
      (∀ e ∈ result, e.2.2.length = e.2.1 ∧ 1 ≤ e.2.1) →
      ∀ e ∈ relatedLoop g node maxDepth queue visited result,
        e.2.2.length = e.2.1 ∧ 1 ≤ e.2.1 := by
  intro queue visited result
  induction queue, visited, result using relatedLoop.induct g node maxDepth with
  | case1 visited result =>
    intro _ hr
    simp only [relatedLoop]
    exact hr
  | case2 current depth path rest visited result hguard ih =>
    intro hq hr
    simp only [relatedLoop]
    rw [if_pos hguard]
    exact ih (fun e he => hq e (by simp [he])) hr
  | case3 current depth path rest visited result hguard visited' result' hdepth pushes ih =>
    intro hq hr
    have hres' : ∀ e ∈ result', e.2.2.length = e.2.1 ∧ 1 ≤ e.2.1 := by
      have hdef : result'
          = if h : current ≠ node then result ++ [(current, depth, path)] else result := rfl
      intro e he
      by_cases hcn : current ≠ node
      · rw [hdef, dif_pos hcn] at he
        rcases List.mem_append.mp he with hold | hnew
        · exact hr e hold
        · have hcur := hq (current, depth, path) (by simp)
          rw [List.mem_singleton] at hnew
          subst hnew
          refine ⟨hcur.1, ?_⟩
          rcases Nat.eq_zero_or_pos depth with hz | hp
          · exact absurd (hcur.2 hz) hcn
          · exact hp
      · rw [hdef, dif_neg hcn] at he
        exact hr e he
    have hqueue' : ∀ e ∈ pushes.reverse ++ rest,
        e.2.2.length = e.2.1 ∧ (e.2.1 = 0 → e.1 = node) := by
      intro e he
      rcases List.mem_append.mp he with hpush | hrest
      · rw [List.mem_reverse] at hpush
        rcases List.mem_map.mp hpush with ⟨edge, _, rfl⟩
        have hcur := hq (current, depth, path) (by simp)
        refine ⟨by simpa using hcur.1, ?_⟩
        intro h
        exact absurd h (by simp)
      · exact hq _ (by simp [hrest])
    simp only [relatedLoop]
    rw [if_neg hguard, if_pos hdepth]
    exact ih hqueue' hres'
  | case4 current depth path rest visited result hguard visited' result' hdepth ih =>
    intro hq hr
    have hres' : ∀ e ∈ result', e.2.2.length = e.2.1 ∧ 1 ≤ e.2.1 := by
      have hdef : result'
          = if h : current ≠ node then result ++ [(current, depth, path)] else result := rfl
      intro e he
      by_cases hcn : current ≠ node
      · rw [hdef, dif_pos hcn] at he
        rcases List.mem_append.mp he with hold | hnew
        · exact hr e hold
        · have hcur := hq (current, depth, path) (by simp)
          rw [List.mem_singleton] at hnew
          subst hnew
          refine ⟨hcur.1, ?_⟩
          rcases Nat.eq_zero_or_pos depth with hz | hp
          · exact absurd (hcur.2 hz) hcn
          · exact hp
      · rw [hdef, dif_neg hcn] at he
        exact hr e he
    simp only [relatedLoop]
    rw [if_neg hguard, if_neg hdepth]
    exact ih (fun e he => hq e (by simp [he])) hres'

theorem getRelatedNodes_inv (g : CodeGraph) (node maxDepth : Nat) :
    ∀ e ∈ getRelatedNodes g node maxDepth, e.2.2.length = e.2.1 ∧ 1 ≤ e.2.1 := by
  apply relatedLoop_result_inv
  · intro e he
    rw [List.mem_singleton] at he
    subst he
    exact ⟨rfl, fun _ => rfl⟩
  · intro e he
    cases he

/-! ### Context assembly (`src/crates/graph/src/assembler.rs`) -/

/-- `AssemblyStrategy` (assembler.rs lines 14-27). -/
inductive AssemblyStrategy where
  | direct | extended | deep | custom (depth : Nat)
  deriving DecidableEq, Repr

/-- `RelatedChunk` (assembler.rs lines 42-48). -/
structure RelatedChunk where
  chunk : CodeChunk
  relationship : List RelationshipType
  distance : Nat
  relevanceScore : ℚ
  deriving DecidableEq, Repr

/-- `AssembledContext` (assembler.rs lines 30-40). -/
structure AssembledContext where
  primaryChunk : CodeChunk
  relatedChunks : List RelatedChunk
  totalLines : Nat
  deriving DecidableEq, Repr

/-- `relationship_rank` (assembler.rs lines 50-59). -/
def relationshipRank : RelationshipType → Nat
  | RelationshipType.calls => 0
  | RelationshipType.uses => 1
  | RelationshipType.contains => 2
  | RelationshipType.extends => 3
  | RelationshipType.imports => 4
  | RelationshipType.testedBy => 5

/-- `compare_relationship_paths` (assembler.rs lines 61-71): compare ranks
pointwise over the zip, then compare lengths. -/
def compareRelationshipPaths : List RelationshipType → List RelationshipType → Ordering
  | [], [] => Ordering.eq
  | [], _ :: _ => Ordering.lt
  | _ :: _, [] => Ordering.gt
  | x :: xs, y :: ys =>
    match compare (relationshipRank x) (relationshipRank y) with
    | Ordering.eq => compareRelationshipPaths xs ys
    | o => o

/-- The per-relationship weights of `calculate_relevance` (assembler.rs
lines 181-190), in source order: Calls 1.0, Uses 0.8, Contains 0.7,
Imports 0.5, Extends 0.6, TestedBy 0.4. -/
def relationshipWeight : RelationshipType → ℚ
  | RelationshipType.calls => 1
  | RelationshipType.uses => 8 / 10
  | RelationshipType.contains => 7 / 10
  | RelationshipType.imports => 5 / 10
  | RelationshipType.extends => 6 / 10
  | RelationshipType.testedBy => 4 / 10

/-- `ContextAssembler::calculate_relevance` (assembler.rs lines 174-195):
`1/(distance+1)` times the weight sum divided by `max(path.len(), 1)`. -/
def calculateRelevance (distance : Nat) (path : List RelationshipType) : ℚ :=
  let distanceScore : ℚ := 1 / ((distance : ℚ) + 1)
  let relationshipScore : ℚ :=
    (path.map relationshipWeight).sum / ((max path.length 1 : Nat) : ℚ)
  distanceScore * relationshipScore

/-- Modelled from the spec: `CodeChunk::line_count` (chunker crate, not
under `src/`) — the number of lines a chunk spans. -/
def CodeChunk.lineCount (c : CodeChunk) : Nat := c.endLine - c.startLine + 1

/-- The sort comparator of `assemble_for_symbol` (assembler.rs lines
128-136): relevance descending, then distance, file path, start/end line
ascending, then relationship-path rank order. -/
def cmpRelated (a b : RelatedChunk) : Ordering :=
  (compare b.relevanceScore a.relevanceScore).then
    ((compare a.distance b.distance).then
      ((compare a.chunk.filePath b.chunk.filePath).then
        ((compare a.chunk.startLine b.chunk.startLine).then
          ((compare a.chunk.endLine b.chunk.endLine).then
            (compareRelationshipPaths a.relationship b.relationship)))))

/-- `a` may precede `b` in the stable sort iff the comparator does not
order it strictly after. -/
def relatedLe (a b : RelatedChunk) : Bool := cmpRelated a b != Ordering.gt

/-- `ContextAssembler::assemble_for_symbol` (assembler.rs lines 80-150):
resolve the strategy's depth, find the primary node and its chunk, collect
related nodes within the depth, keep those with a chunk (scored by
`calculate_relevance`), sort, and total the line counts. -/
def assembleForSymbol (g : CodeGraph) (symbolName : String) (strategy : AssemblyStrategy) :
    Except String AssembledContext :=
  let maxDepth := match strategy with
    | AssemblyStrategy.direct => 1
    | AssemblyStrategy.extended => 2
    | AssemblyStrategy.deep => 3
    | AssemblyStrategy.custom d => d
  match g.findNode symbolName with
  | none => Except.error ("Node not found: " ++ symbolName)
  | some node =>
    match g.getNode node with
    | none => Except.error ("Node not found: " ++ symbolName)
    | some primaryNode =>
      match primaryNode.chunk with
      | none => Except.error "Missing chunk data"
      | some primaryChunk =>
        let relatedNodes := getRelatedNodes g node maxDepth
        let relatedChunks := relatedNodes.filterMap (fun e =>
          match g.getNode e.1 with
          | some nodeData =>
            match nodeData.chunk with
            | some chunk =>
              some (RelatedChunk.mk chunk e.2.2 e.2.1 (calculateRelevance e.2.1 e.2.2))
            | none => none
          | none => none)
        let sorted := sortByStable relatedLe relatedChunks
        let totalLines := primaryChunk.lineCount
          + (sorted.map (fun rc => rc.chunk.lineCount)).sum
        Except.ok (AssembledContext.mk primaryChunk sorted totalLines)

/-- C6: every related chunk collected by the assembler has a non-empty
relationship path whose length is exactly its distance, and its relevance
score equals `1/(distance+1)` times the arithmetic mean (sum divided by
path length) of the per-relationship weights along its path. -/
theorem assembler_relevance_is_distance_times_mean (g : CodeGraph) (name : String)
    (strategy : AssemblyStrategy) (res : AssembledContext)
    (hok : assembleForSymbol g name strategy = Except.ok res) :
    ∀ rc ∈ res.relatedChunks,
      rc.relationship ≠ [] ∧ rc.distance = rc.relationship.length ∧
      rc.relevanceScore = (1 / ((rc.distance : ℚ) + 1)) *
        ((rc.relationship.map relationshipWeight).sum / (rc.relationship.length : ℚ)) := by
  simp only [assembleForSymbol] at hok
  rcases hfind : g.findNode name with _ | node <;> simp only [hfind] at hok
  · cases hok
  rcases hget : g.getNode node with _ | primaryNode <;> simp only [hget] at hok
  · cases hok
  rcases hchunk : primaryNode.chunk with _ | primaryChunk <;> simp only [hchunk] at hok
  · cases hok
  simp only [Except.ok.injEq] at hok
  subst hok
  intro rc hrc
  simp only [mem_sortByStable, List.mem_filterMap] at hrc
  rcases hrc with ⟨e, he, hf⟩
  split at hf
  case h_2 => exact Option.noConfusion hf
  split at hf
  case h_2 => exact Option.noConfusion hf
  injection hf with hf
  subst hf
  have hinv := getRelatedNodes_inv g node _ e he
  have hlen : e.2.2.length = e.2.1 := hinv.1
  have hpos : 1 ≤ e.2.1 := hinv.2
  refine ⟨?_, ?_, ?_⟩
  · show e.2.2 ≠ []
    intro hnil
    rw [hnil] at hlen
    simp at hlen
    omega
  · show e.2.1 = e.2.2.length
    exact hlen.symm
  · show calculateRelevance e.2.1 e.2.2
      = (1 / ((e.2.1 : ℚ) + 1)) *
        ((e.2.2.map relationshipWeight).sum / (e.2.2.length : ℚ))
    simp only [calculateRelevance]
    rw [Nat.max_eq_left (by omega : 1 ≤ e.2.2.length)]

/-- A two-node example graph for the assembler witness: `primary` calls
`a`. -/
def exAssemblerChunkPrimary : CodeChunk :=
  ⟨"main.rs", 1, 10, "fn primary() { a(); }",
    { symbolName := some "primary", chunkType := some ChunkType.function }⟩

/-- The callee chunk of the assembler witness graph. -/
def exAssemblerChunkA : CodeChunk :=
  ⟨"a.rs", 5, 6, "fn a() {}",
    { symbolName := some "a", chunkType := some ChunkType.function }⟩

/-- The assembler witness graph: two nodes, one `Calls` edge. -/
def exAssemblerGraph : CodeGraph :=
  { nodes := [nodeOfChunk exAssemblerChunkPrimary, nodeOfChunk exAssemblerChunkA]
    edges := [(0, 1, ⟨RelationshipType.calls, 1⟩)] }

/-- Witness for `assembler_relevance_is_distance_times_mean`: assembling
`primary` with the `Direct` strategy succeeds and every collected related
chunk satisfies the relevance formula. -/
theorem assembler_relevance_witness :
    ∃ res, assembleForSymbol exAssemblerGraph "primary" AssemblyStrategy.direct
        = Except.ok res
      ∧ ∀ rc ∈ res.relatedChunks,
          rc.relationship ≠ [] ∧ rc.distance = rc.relationship.length ∧
          rc.relevanceScore = (1 / ((rc.distance : ℚ) + 1)) *
            ((rc.relationship.map relationshipWeight).sum / (rc.relationship.length : ℚ)) := by
  have hrel : getRelatedNodes exAssemblerGraph 0 1 = [(1, 1, [RelationshipType.calls])] := by
    simp [getRelatedNodes, relatedLoop, exAssemblerGraph, List.filter_cons]
  have hfind : exAssemblerGraph.findNode "primary" = some 0 := by
    simp [CodeGraph.findNode, findNodeAux, exAssemblerGraph, nodeOfChunk, extractSymbol,
      exAssemblerChunkPrimary]
  have hget0 : exAssemblerGraph.getNode 0 = some (nodeOfChunk exAssemblerChunkPrimary) := rfl
  have hget1 : exAssemblerGraph.getNode 1 = some (nodeOfChunk exAssemblerChunkA) := rfl
  have hok : assembleForSymbol exAssemblerGraph "primary" AssemblyStrategy.direct
      = Except.ok (AssembledContext.mk exAssemblerChunkPrimary
          [RelatedChunk.mk exAssemblerChunkA [RelationshipType.calls] 1 (1 / 2)] 12) := by
    simp only [assembleForSymbol, hfind, hget0,
      show (nodeOfChunk exAssemblerChunkPrimary).chunk = some exAssemblerChunkPrimary from rfl]
    rw [hrel]
    simp only [List.filterMap_cons, List.filterMap_nil, hget1,
      show (nodeOfChunk exAssemblerChunkA).chunk = some exAssemblerChunkA from rfl]
    norm_num [sortByStable, insertStable, calculateRelevance, relationshipWeight,
      CodeChunk.lineCount, exAssemblerChunkPrimary, exAssemblerChunkA]
  exact ⟨_, hok, assembler_relevance_is_distance_times_mean _ _ _ _ hok⟩

/-! ## Hybrid search (`src/crates/search/src/{hybrid,fuzzy}.rs`)

The pipeline's external collaborators and the search-crate modules missing
from `src/` enter as the fields of `SearchEnv`:

* `storeSearch` — the vector store search over the external embedder
  (§4.2); `store.search_batch(queries, k)` performs the same per-query
  search through one batched embedder call (§4.2), so it is modelled as
  mapping `storeSearch` over the queries;
* `patternScore` — the external `nucleo-matcher` scorer
  (`Pattern::parse(query) |> score(haystack)`), `u32` scores;
* `expander` (`query_expansion.rs`), `classifier` (`query_classifier.rs`),
  `rerank` (`rerank.rs`), the profile callbacks and `ChunkType::priority`
  — `Modelled from the spec:` these modules are part of the repository but
  not under `src/`; the spec fixes only their interfaces (§4.8 steps 2, 3,
  10; §4.8 step 7; step 9's `ct.priority/100`), so they are deterministic
  function parameters. -/

/-- The oracle/spec-modelled components the hybrid pipeline is
parameterized over (see section header). -/
structure SearchEnv where
  expander : String → String
  classifier : String → QueryWeights
  storeSearch : String → Nat → List (String × ℚ)
  patternScore : String → String → Option Nat
  rerank : List String → List (Nat × ℚ) → List (Nat × ℚ) → List (Nat × ℚ) → List (Nat × ℚ)
  priority : ChunkType → Nat
  isRejected : String → Bool
  minFuzzyScore : ℚ
  pathWeight : String → ℚ

/-- ASCII lowercase of one character (`to_ascii_lowercase`). -/
def asciiLower (c : Char) : Char :=
  if 'A' ≤ c ∧ c ≤ 'Z' then Char.ofNat (c.toNat + 32) else c

/-- ASCII lowercase of a string. -/
def lowerStr (s : String) : String := String.mk (s.toList.map asciiLower)

/-- Whether the first char list is a prefix of the second. -/
def startsWithList : List Char → List Char → Bool
  | [], _ => true
  | _ :: _, [] => false
  | n :: ns, h :: hs => (n == h) && startsWithList ns hs

/-- Whether `needle` occurs as a contiguous run inside the haystack. -/
def listContains (needle : List Char) : List Char → Bool
  | [] => needle.isEmpty
  | c :: rest => startsWithList needle (c :: rest) || listContains needle rest

/-- Substring containment (`str::contains` with a literal pattern). -/
def strContains (hay needle : String) : Bool :=
  listContains needle.toList hay.toList

/-- `query.trim().is_empty()`: the string has no non-whitespace character. -/
def isBlank (s : String) : Bool := s.toList.all Char.isWhitespace

/-- `str.split(p)` by a character predicate (segments between separator
characters). -/
def splitByPred (p : Char → Bool) : List Char → List Char → List (List Char)
  | [], acc => [acc.reverse]
  | c :: rest, acc =>
    if p c then acc.reverse :: splitByPred p rest [] else splitByPred p rest (c :: acc)

/-- `Vec::dedup`: drop consecutive duplicates. -/
def dedupConsec {α : Type} [DecidableEq α] : List α → List α
  | [] => []
  | [x] => [x]
  | x :: y :: rest =>
    if x = y then dedupConsec (y :: rest) else x :: dedupConsec (y :: rest)

/-- `query_tokens` (hybrid.rs lines 425-440): split on non-ASCII-
alphanumeric characters (so segments need no trimming), lowercase, keep
tokens of length ≥ 3, sort, drop consecutive duplicates. -/
def queryTokens (query : String) : List String :=
  let tokens := (splitByPred (fun c => !c.isAlphanum) query.toList []).filterMap (fun seg =>
    let token := seg.map asciiLower
    if token.length < 3 then none else some (String.mk token))
  dedupConsec (sortByStable (fun a b => compare a b != Ordering.gt) tokens)

/-- `has_query_overlap` (hybrid.rs lines 442-457): no tokens always
overlaps; otherwise some token occurs in the lowercased file path, content,
or symbol name. -/
def hasQueryOverlap (chunk : CodeChunk) (tokens : List String) : Bool :=
  if tokens.isEmpty then true
  else
    let haystacks := [lowerStr chunk.filePath, lowerStr chunk.content]
      ++ (match chunk.metadata.symbolName with
          | some s => [lowerStr s]
          | none => [])
    tokens.any (fun token => haystacks.any (fun hay => strContains hay token))

/-- `HybridSearch::candidate_pool` (hybrid.rs lines 405-409). -/
def candidatePoolFn (limit multiplier : Nat) : Nat := max limit 1 * max multiplier 4

/-- `HybridSearch::filter_fuzzy` (hybrid.rs lines 411-422): drop scores
below the profile minimum and rejected chunk indices (out-of-range lookups
count as not rejected, like `get(idx).copied().unwrap_or(false)`). -/
def filterFuzzy (scores : List (Nat × ℚ)) (rejected : Nat → Bool) (minScore : ℚ) :
    List (Nat × ℚ) :=
  scores.filter (fun e => decide (minScore ≤ e.2) && !rejected e.1)

/-- The content preview of `FuzzySearch::search` (fuzzy.rs lines 46-55):
the longest char-boundary prefix of at most 200 bytes. -/
def takeBytes : Nat → List Char → List Char
  | _, [] => []
  | budget, c :: rest =>
    if c.utf8Size ≤ budget then c :: takeBytes (budget - c.utf8Size) rest else []

/-- The ≤200-byte content preview (identity below the cap). -/
def contentPreview (s : String) : String :=
  if s.utf8ByteSize > 200 then String.mk (takeBytes 200 s.toList) else s

/-- `eq_ignore_ascii_case`. -/
def eqIgnoreAsciiCase (a b : String) : Bool := lowerStr a == lowerStr b

/-- `max()` over the present values of a list of optional scores
(`[a, b, c].into_iter().flatten().max()`). -/
def maxOfScores (l : List (Option Nat)) : Option Nat := (l.filterMap id).max?

/-- `false < true` rank of Rust's `bool: Ord`. -/
def boolRank : Bool → Nat
  | false => 0
  | true => 1

/-- The comparator of fuzzy candidates (fuzzy.rs line 76): exact-symbol
matches first, then raw score descending. -/
def fuzzyCmp (a b : Nat × Nat × Bool) : Ordering :=
  (compare (boolRank b.2.2) (boolRank a.2.2)).then (compare b.2.1 a.2.1)

/-- `FuzzySearch::search` (fuzzy.rs lines 20-92) with the nucleo scorer as
the oracle `patternScore` (already specialised to the parsed query
pattern): score path, symbol and 200-byte content preview, keep the best;
fold the raw maximum over all candidates; sort exact-symbol-first then
score-descending; truncate; normalize to `[0,1]` with exact symbol matches
pinned to 1.0. -/
def fuzzySearch (patternScore : String → Option Nat) (query : String)
    (chunks : List CodeChunk) (limit : Nat) : List (Nat × ℚ) :=
  let scored : List (Nat × Nat × Bool) := chunks.enum.filterMap (fun e =>
    let chunk := e.2
    let exactSymbol := match chunk.metadata.symbolName with
      | some name => eqIgnoreAsciiCase name query
      | none => false
    let pathScore := patternScore chunk.filePath
    let symbolScore := match chunk.metadata.symbolName with
      | some name => patternScore name
      | none => none
    let contentScore := patternScore (contentPreview chunk.content)
    match maxOfScores [pathScore, symbolScore, contentScore] with
    | some best => some (e.1, best, exactSymbol)
    | none => none)
  let maxScore : ℚ := (scored.map (fun e => (e.2.1 : ℚ))).foldl max 0
  let sorted := (sortByStable (fun a b => fuzzyCmp a b != Ordering.gt) scored).take limit
  sorted.map (fun e =>
    let normalized : ℚ :=
      if e.2.2 then 1 else if maxScore > 0 then (e.2.1 : ℚ) / maxScore else 0
    (e.1, normalized))

/-- `AstBooster::compute_boost` (fusion.rs lines 126-168), with the
missing `ChunkType::priority` as the oracle `priority`. -/
def computeBoost (priority : ChunkType → Nat) (chunk : CodeChunk) : ℚ :=
  let typeBoost : ℚ := match chunk.metadata.chunkType with
    | none => 1
    | some ct => match ct with
      | ChunkType.function | ChunkType.method => 118 / 100
      | ChunkType.structType | ChunkType.classType
      | ChunkType.enumType | ChunkType.interfaceType => 105 / 100
      | ChunkType.variable | ChunkType.const => 9 / 10
      | _ => (priority ct : ℚ) / 100
  let docBoost : ℚ := if chunk.metadata.documentation.isSome then 11 / 10 else 1
  let contextBoost : ℚ :=
    if !chunk.metadata.contextImports.isEmpty || chunk.metadata.parentScope.isSome then
      105 / 100
    else 1
  let path := lowerStr chunk.filePath
  let pathBoost : ℚ :=
    (if strContains path "/agents/" || strContains path "/tests/"
        || strContains path "/test/" then (6 : ℚ) / 10 else 1)
    * (if strContains path "/scripts/" || strContains path "docker"
        || strContains path "/db/" || strContains path "/deploy/"
        || strContains path "/infra/" then (7 : ℚ) / 10 else 1)
    * (if strContains path "packages/utils" || strContains path "/utils"
        || strContains path "src/lib" then (125 : ℚ) / 100 else 1)
  typeBoost * docBoost * contextBoost * pathBoost

/-- `AstBooster::boost` (fusion.rs lines 116-124). -/
def astBoost (priority : ChunkType → Nat) (chunks : List CodeChunk)
    (results : List (Nat × ℚ)) : List (Nat × ℚ) :=
  results.map (fun e =>
    let boost := match chunks[e.1]? with
      | some c => computeBoost priority c
      | none => 1
    (e.1, e.2 * boost))

/-- The `chunk_id → index` map of the pipelines (`HashMap::insert`
overwrites, so a duplicated id resolves to the last chunk). -/
def chunkIdToIdx (chunks : List CodeChunk) (id : String) : Option Nat :=
  chunks.enum.foldl (fun acc e => if e.2.chunkId = id then some e.1 else acc) none

/-- The rejected-index table (`profile.is_rejected` per chunk). -/
def rejectedIdx (env : SearchEnv) (chunks : List CodeChunk) (idx : Nat) : Bool :=
  match chunks[idx]? with
  | some c => env.isRejected c.filePath
  | none => false

/-- The conversion of store hits to `(chunk index, score)` pairs dropping
rejected paths (hybrid.rs lines 78-86 / 230-238). -/
def semanticToScores (env : SearchEnv) (chunks : List CodeChunk)
    (semanticResults : List (String × ℚ)) : List (Nat × ℚ) :=
  semanticResults.filterMap (fun r =>
    match chunkIdToIdx chunks r.1 with
    | some idx => if rejectedIdx env chunks idx then none else some (idx, r.2)
    | none => none)

/-- `HybridSearch::search` (hybrid.rs lines 43-150): reject blank queries;
expand; classify; semantic search over the expanded query; fuzzy over the
raw query; adaptive RRF fusion; AST boost and rule rerank; path-weight
penalty; min-max normalization; sort descending; truncate. -/
def hybridSearch (env : SearchEnv) (chunks : List CodeChunk) (query : String)
    (limit : Nat) : Except String (List SearchResult) :=
  if isBlank query then Except.error "empty query"
  else
    let expandedQuery := env.expander query
    let weights := env.classifier query
    let candidatePool := candidatePoolFn limit weights.candidateMultiplier
    let tokens := queryTokens query
    let semanticScores := semanticToScores env chunks (env.storeSearch expandedQuery candidatePool)
    let fuzzyScores := filterFuzzy (fuzzySearch (env.patternScore query) query chunks candidatePool)
      (rejectedIdx env chunks) env.minFuzzyScore
    let fusedScores := RRFFusion.default.fuseAdaptive weights semanticScores fuzzyScores
    let boostedScores := env.rerank tokens (astBoost env.priority chunks fusedScores)
      semanticScores fuzzyScores
    let finalResults : List SearchResult := boostedScores.filterMap (fun e =>
      match chunks[e.1]? with
      | some chunk => some ⟨chunk, some (e.2 * env.pathWeight chunk.filePath), chunk.chunkId⟩
      | none => none)
    let normalized := normalizeScores finalResults
    let sorted := sortByStable (fun a b => scoreDescLe a.score b.score) normalized
    Except.ok (sorted.take limit)

/-- The per-query body of `HybridSearch::search_batch` (hybrid.rs lines
225-303).  It differs from the body of `search` in exactly one step: the
conversion to `SearchResult` additionally drops chunks failing
`has_query_overlap` (line 269).  `weights`, `tokens` and the batched
semantic results are the `i`-th entries of lists mapped over the queries,
i.e. the values computed from this query. -/
def hybridBatchBody (env : SearchEnv) (chunks : List CodeChunk) (candidatePool : Nat)
    (query : String) (limit : Nat) : List SearchResult :=
  let weights := env.classifier query
  let tokens := queryTokens query
  let semanticScores := semanticToScores env chunks
    (env.storeSearch (env.expander query) candidatePool)
  let fuzzyScores := filterFuzzy (fuzzySearch (env.patternScore query) query chunks candidatePool)
    (rejectedIdx env chunks) env.minFuzzyScore
  let fusedScores := RRFFusion.default.fuseAdaptive weights semanticScores fuzzyScores
  let boostedScores := env.rerank tokens (astBoost env.priority chunks fusedScores)
    semanticScores fuzzyScores
  let finalResults : List SearchResult := boostedScores.filterMap (fun e =>
    match chunks[e.1]? with
    | some chunk =>
      if hasQueryOverlap chunk tokens then
        some ⟨chunk, some (e.2 * env.pathWeight chunk.filePath), chunk.chunkId⟩
      else none
    | none => none)
  let normalized := normalizeScores finalResults
  let sorted := sortByStable (fun a b => scoreDescLe a.score b.score) normalized
  sorted.take limit

/-- `HybridSearch::search_batch` (hybrid.rs lines 154-307): empty query
list yields no results; any blank query is rejected; the candidate pool
uses the maximum candidate multiplier over all queries (default 5 when
empty); the semantic step maps the store search over all expanded queries
(one batched embedder call, §4.2); then each query runs the per-query
body. -/
def hybridSearchBatch (env : SearchEnv) (chunks : List CodeChunk) (queries : List String)
    (limit : Nat) : Except String (List (List SearchResult)) :=
  if queries.isEmpty then Except.ok []
  else if queries.any isBlank then Except.error "empty query"
  else
    let maxMultiplier := ((queries.map env.classifier).map
      (fun w => w.candidateMultiplier)).max?.getD 5
    let candidatePool := candidatePoolFn limit maxMultiplier
    Except.ok (queries.map (fun query => hybridBatchBody env chunks candidatePool query limit))

/-- The single-query pipeline with the batch variant's `has_query_overlap`
filter added at the conversion step — the statement of what
`search_batch([q], limit)` actually computes. -/
def hybridSearchWithOverlap (env : SearchEnv) (chunks : List CodeChunk) (query : String)
    (limit : Nat) : Except String (List SearchResult) :=
  if isBlank query then Except.error "empty query"
  else
    Except.ok (hybridBatchBody env chunks
      (candidatePoolFn limit (env.classifier query).candidateMultiplier) query limit)

/-- C2 (amended): on a singleton query list the batch search runs the
single-query pipeline PLUS the `has_query_overlap` filter — it equals the
overlap-filtered single search (wrapped as a one-element batch), not
`search` itself. -/
theorem search_batch_singleton_is_filtered_search (env : SearchEnv)
    (chunks : List CodeChunk) (query : String) (limit : Nat) :
    hybridSearchBatch env chunks [query] limit
      = (hybridSearchWithOverlap env chunks query limit).map (fun rs => [rs]) := by
  by_cases hblank : isBlank query
  · simp [hybridSearchBatch, hybridSearchWithOverlap, hblank, Except.map]
  · simp [hybridSearchBatch, hybridSearchWithOverlap, hblank, Except.map, List.max?]

/-- The fixed environment of the C2 counterexample: identity expander and
rerank, classifier weights `(semantic 1, fuzzy 0, multiplier 5)`, one store
hit on the only chunk, a nucleo scorer matching nothing, no rejected paths,
minimum fuzzy score 0 and unit path weights. -/
def c2Env : SearchEnv :=
  SearchEnv.mk (fun q => q) (fun _ => QueryWeights.mk 1 0 5)
    (fun _ _ => [("a.b:1:2", 1 / 2)]) (fun _ _ => none)
    (fun _ scored _ _ => scored) (fun _ => 100) (fun _ => false) 0 (fun _ => 1)

/-- The single indexed chunk of the C2 counterexample; neither its path,
its content nor a symbol name contains the query token "foo". -/
def c2Chunk : CodeChunk := CodeChunk.mk "a.b" 1 2 "zzzz" {}

/-- C2 (counterexample to the literal claim): with one chunk that the store
returns as a semantic hit but that shares no token with the query "foo",
`search` returns the chunk (normalized score 1.0) while `search_batch` on
the singleton query list returns an empty result list — the
`has_query_overlap` filter exists only in the batch pipeline, so
`search_batch([q], limit)` is not the same as `search(q, limit)`. -/
theorem search_batch_singleton_differs_from_search_counterexample :
    hybridSearch c2Env [c2Chunk] "foo" 5
      = Except.ok [SearchResult.mk c2Chunk (some 1) "a.b:1:2"]
    ∧ hybridSearchBatch c2Env [c2Chunk] ["foo"] 5 = Except.ok [[]]
    ∧ hybridSearchBatch c2Env [c2Chunk] ["foo"] 5
      ≠ (hybridSearch c2Env [c2Chunk] "foo" 5).map (fun rs => [rs]) := by
  have hcb : computeBoost (fun _ => 100)
      (CodeChunk.mk "a.b" 1 2 "zzzz" (ChunkMetadata.mk none none none none none [] none []))
      = 1 * 1 * 1 * (1 * 1 * 1) := rfl
  have hsingle : ∀ q : ℚ, f32Min ≤ q → q ≤ f32Max →
      (sortByStable (fun a b => scoreDescLe a.score b.score)
        (normalizeScores [SearchResult.mk c2Chunk (some q) "a.b:1:2"])).take 5
        = [SearchResult.mk c2Chunk (some 1) "a.b:1:2"] := by
    intro q hq1 hq2
    have hmin : minScoreOf [SearchResult.mk c2Chunk (some q) "a.b:1:2"] = q := by
      simp [minScoreOf, finiteScoresOf, min_eq_right hq2]
    have hmax : maxScoreOf [SearchResult.mk c2Chunk (some q) "a.b:1:2"] = q := by
      simp [maxScoreOf, finiteScoresOf, max_eq_right hq1]
    norm_num [normalizeScores, hmin, hmax, sortByStable, insertStable, minDelta]
  have hA : hybridSearch c2Env [c2Chunk] "foo" 5
      = Except.ok [SearchResult.mk c2Chunk (some 1) "a.b:1:2"] :=
    congrArg Except.ok (hsingle _
      (by norm_num [c2Env, c2Chunk, hcb, RRFFusion.default, f32Min, f32Max])
      (by norm_num [c2Env, c2Chunk, hcb, RRFFusion.default, f32Min, f32Max]))

  have hB : hybridSearchBatch c2Env [c2Chunk] ["foo"] 5 = Except.ok [[]] := rfl
  refine ⟨hA, hB, ?_⟩
  rw [hA, hB]
  simp [Except.map]

/-! ## Batch budget enforcement (`src/crates/cli/src/command/services/batch.rs`)

The serializer pair `finalize_used_chars` / `enforce_max_chars` lives in
the `context_protocol` crate, which is part of the repository but not under
`src/`.  Modelled from the spec: `used_chars == len(serialize(envelope))`
after finalize (§9 invariant 6), so both are parameterized by an abstract
deterministic measure `measure : List BatchItemResult → Nat` — the
serialized envelope length as a function of the item list (the budget
fields' own contribution is folded into the measure; `run_batch` pre-checks
`min_chars = measure of the empty envelope` against `max_chars` at lines
41-59, which is the `measure [] ≤ max_chars` hypothesis below).  The
envelope's constant `version` / `next_actions` fields are omitted. -/

/-- `CommandStatus` of a batch item. -/
inductive CommandStatus where
  | ok
  | error
  deriving DecidableEq, Repr

/-- `BatchItemResult` (domain.rs line 75), restricted to the fields the
budget logic reads or constructs distinctively. -/
structure BatchItemResult where
  id : String
  status : CommandStatus
  message : Option String
  deriving DecidableEq, Repr

/-- The synthesized budget error of `push_item_or_truncate` (batch.rs lines
416-425): `error_item(rejected.id, "Batch budget exceeded (max_chars=…)…")`. -/
def errorItem (id : String) (maxChars : Nat) : BatchItemResult :=
  BatchItemResult.mk id CommandStatus.error
    (some ("Batch budget exceeded (max_chars=" ++ toString maxChars
      ++ "). Reduce payload sizes or raise max_chars."))

/-- `BatchBudget` (domain.rs line 68); `truncationMax` models
`truncation == Some(BudgetTruncation::MaxChars)`. -/
structure BatchBudget where
  maxChars : Nat
  usedChars : Nat
  truncated : Bool
  truncationMax : Bool
  deriving DecidableEq, Repr

/-- `BatchOutput` (domain.rs line 89) without its constant fields. -/
structure BatchOutput where
  items : List BatchItemResult
  budget : BatchBudget
  deriving DecidableEq, Repr

/-- The drop loop of `enforce_max_chars` as driven by `trim_batch_output`
(batch.rs lines 481-501): while the measure exceeds `max_chars` and an item
remains, pop the last item and set both truncation flags. -/
def trimItems (measure : List BatchItemResult → Nat) (maxChars : Nat) :
    List BatchItemResult → Bool × Bool → List BatchItemResult × (Bool × Bool)
  | items, flags =>
    if maxChars < measure items then
      if h : items.isEmpty then (items, flags)
      else trimItems measure maxChars items.dropLast (true, true)
    else (items, flags)
  termination_by items _ => items.length
  decreasing_by
    simp only [List.length_dropLast]
    have hne : items ≠ [] := by simpa using h
    have := List.length_pos.mpr hne
    omega

/-- `trim_batch_output` (batch.rs lines 481-501): run the drop loop, then
store the recomputed measure as `used_chars`. -/
def trimBatchOutput (measure : List BatchItemResult → Nat) (o : BatchOutput) : BatchOutput :=
  let r := trimItems measure o.budget.maxChars o.items
    (o.budget.truncated, o.budget.truncationMax)
  BatchOutput.mk r.1 (BatchBudget.mk o.budget.maxChars (measure r.1) r.2.1 r.2.2)

/-- `push_item_or_truncate` (batch.rs lines 406-434): push, recompute the
measure; over budget pop the just-pushed item, set the truncation flags,
push the synthesized error item ONLY when the envelope is then empty, trim,
and signal stop (`false`); otherwise store the measure and continue. -/
def pushItemOrTruncate (measure : List BatchItemResult → Nat) (o : BatchOutput)
    (item : BatchItemResult) : BatchOutput × Bool :=
  let items := o.items ++ [item]
  let used := measure items
  if o.budget.maxChars < used then
    let withError := if o.items.isEmpty then [errorItem item.id o.budget.maxChars] else o.items
    (trimBatchOutput measure
      (BatchOutput.mk withError (BatchBudget.mk o.budget.maxChars used true true)), false)
  else
    (BatchOutput.mk items
      (BatchBudget.mk o.budget.maxChars used o.budget.truncated o.budget.truncationMax), true)

/-- The append loop of `run_batch` (batch.rs lines 70-357), abstracted over
the already-computed per-item outcomes (item execution is independent of
the budget): stop when a push truncates, or on an error outcome under
`stop_on_error`. -/
def batchAppendLoop (measure : List BatchItemResult → Nat) (stopOnError : Bool)
    (o : BatchOutput) : List BatchItemResult → BatchOutput
  | [] => o
  | item :: rest =>
    let r := pushItemOrTruncate measure o item
    if r.2 then
      if stopOnError && (r.1.items.getLast?.any fun i => decide (i.status = CommandStatus.error))
      then r.1
      else batchAppendLoop measure stopOnError r.1 rest
    else r.1

/-- `run_batch`'s budget skeleton (batch.rs lines 30-360): start from the
empty envelope, append outcomes, final trim pass. -/
def runBatchItems (measure : List BatchItemResult → Nat) (stopOnError : Bool)
    (maxChars : Nat) (outcomes : List BatchItemResult) : BatchOutput :=
  trimBatchOutput measure
    (batchAppendLoop measure stopOnError
      (BatchOutput.mk [] (BatchBudget.mk maxChars 0 false false)) outcomes)

theorem trimItems_fst_prefix (measure : List BatchItemResult → Nat) (maxChars : Nat)
    (items : List BatchItemResult) (flags : Bool × Bool) :
    (trimItems measure maxChars items flags).1 <+: items := by
  induction items, flags using trimItems.induct measure maxChars with
  | case1 items flags hover hempty =>
    rw [trimItems, if_pos hover, dif_pos hempty]
  | case2 items flags hover hempty ih =>
    rw [trimItems, if_pos hover, dif_neg hempty]
    exact ih.trans (List.dropLast_prefix items)
  | case3 items flags hover =>
    rw [trimItems, if_neg hover]

theorem trimItems_measure_le (measure : List BatchItemResult → Nat) (maxChars : Nat)
    (h0 : measure [] ≤ maxChars) (items : List BatchItemResult) (flags : Bool × Bool) :
    measure (trimItems measure maxChars items flags).1 ≤ maxChars := by
  induction items, flags using trimItems.induct measure maxChars with
  | case1 items flags hover hempty =>
    rw [trimItems, if_pos hover, dif_pos hempty]
    rw [List.isEmpty_iff] at hempty
    subst hempty
    exact h0
  | case2 items flags hover hempty ih =>
    rw [trimItems, if_pos hover, dif_neg hempty]
    exact ih
  | case3 items flags hover =>
    rw [trimItems, if_neg hover]
    exact le_of_not_lt hover

theorem trimItems_keeps_flags (measure : List BatchItemResult → Nat) (maxChars : Nat)
    (items : List BatchItemResult) (flags : Bool × Bool) (hf : flags = (true, true)) :
    (trimItems measure maxChars items flags).2 = (true, true) := by
  induction items, flags using trimItems.induct measure maxChars with
  | case1 items flags hover hempty => rw [trimItems, if_pos hover, dif_pos hempty]; exact hf
  | case2 items flags hover hempty ih =>
    rw [trimItems, if_pos hover, dif_neg hempty]
    exact ih rfl
  | case3 items flags hover => rw [trimItems, if_neg hover]; exact hf

theorem pushItemOrTruncate_maxChars (measure : List BatchItemResult → Nat)
    (o : BatchOutput) (item : BatchItemResult) :
    (pushItemOrTruncate measure o item).1.budget.maxChars = o.budget.maxChars := by
  simp only [pushItemOrTruncate]
  split <;> rfl

theorem batchAppendLoop_maxChars (measure : List BatchItemResult → Nat) (stopOnError : Bool)
    (outcomes : List BatchItemResult) : ∀ o : BatchOutput,
    (batchAppendLoop measure stopOnError o outcomes).budget.maxChars = o.budget.maxChars := by
  induction outcomes with
  | nil => intro o; rfl
  | cons item rest ih =>
    intro o
    rw [batchAppendLoop]
    split
    · split
      · exact pushItemOrTruncate_maxChars measure o item
      · rw [ih]; exact pushItemOrTruncate_maxChars measure o item
    · exact pushItemOrTruncate_maxChars measure o item

/-- C4 (amended): after each appended item the envelope measure is
recomputed; on overflow the just-added item is popped, both truncation
flags are set, appending stops, and `used_chars` is restored below the
budget — but the synthesized "Batch budget exceeded" error item is
recorded ONLY when the pop leaves the envelope empty (and even it may then
be trimmed away); otherwise the previously accepted items are kept (a
prefix of them survives the trim) with no error item added.  Under the
pre-validated empty-envelope floor, the final trim pass of the whole run
leaves `used_chars = measure(items) ≤ max_chars`. -/
theorem batch_budget_pop_and_trim_spec (measure : List BatchItemResult → Nat)
    (o : BatchOutput) (item : BatchItemResult) (stopOnError : Bool) (maxChars : Nat)
    (outcomes : List BatchItemResult)
    (h0 : measure [] ≤ o.budget.maxChars) (h1 : measure [] ≤ maxChars) :
    (o.budget.maxChars < measure (o.items ++ [item]) →
      (pushItemOrTruncate measure o item).2 = false
      ∧ (pushItemOrTruncate measure o item).1.budget.truncated = true
      ∧ (pushItemOrTruncate measure o item).1.budget.truncationMax = true
      ∧ (pushItemOrTruncate measure o item).1.budget.usedChars
          = measure (pushItemOrTruncate measure o item).1.items
      ∧ (pushItemOrTruncate measure o item).1.budget.usedChars ≤ o.budget.maxChars
      ∧ (o.items ≠ [] → (pushItemOrTruncate measure o item).1.items <+: o.items)
      ∧ (o.items = [] →
          (pushItemOrTruncate measure o item).1.items = [errorItem item.id o.budget.maxChars]
          ∨ (pushItemOrTruncate measure o item).1.items = []))
    ∧ (measure (o.items ++ [item]) ≤ o.budget.maxChars →
        (pushItemOrTruncate measure o item).2 = true
        ∧ (pushItemOrTruncate measure o item).1.items = o.items ++ [item]
        ∧ (pushItemOrTruncate measure o item).1.budget.usedChars
            = measure (o.items ++ [item]))
    ∧ (runBatchItems measure stopOnError maxChars outcomes).budget.usedChars
        = measure (runBatchItems measure stopOnError maxChars outcomes).items
    ∧ (runBatchItems measure stopOnError maxChars outcomes).budget.usedChars ≤ maxChars := by
  refine ⟨?_, ?_, ?_, ?_⟩
  · intro hover
    have hflags := trimItems_keeps_flags measure o.budget.maxChars
      (if o.items.isEmpty then [errorItem item.id o.budget.maxChars] else o.items)
      (true, true) rfl
    have hle := trimItems_measure_le measure o.budget.maxChars h0
      (if o.items.isEmpty then [errorItem item.id o.budget.maxChars] else o.items) (true, true)
    have hpre := trimItems_fst_prefix measure o.budget.maxChars
      (if o.items.isEmpty then [errorItem item.id o.budget.maxChars] else o.items) (true, true)
    simp only [pushItemOrTruncate]
    rw [if_pos hover]
    refine ⟨rfl, ?_, ?_, rfl, hle, ?_, ?_⟩
    · show (trimItems measure o.budget.maxChars _ (true, true)).2.1 = true
      rw [hflags]
    · show (trimItems measure o.budget.maxChars _ (true, true)).2.2 = true
      rw [hflags]
    · intro hne
      have hcond : ¬(o.items.isEmpty = true) := by simpa using hne
      rw [if_neg hcond] at hpre ⊢
      exact hpre
    · intro hnil
      have hcond : o.items.isEmpty = true := by simp [hnil]
      rw [if_pos hcond] at hpre ⊢
      rcases List.prefix_cons_iff.mp hpre with h | ⟨l2, hl, hl2⟩
      · exact Or.inr h
      · refine Or.inl ?_
        show (trimItems measure o.budget.maxChars
          [errorItem item.id o.budget.maxChars] (true, true)).1
          = [errorItem item.id o.budget.maxChars]
        rw [hl, List.prefix_nil.mp hl2]
  · intro hle
    simp only [pushItemOrTruncate]
    rw [if_neg (not_lt.mpr hle)]
    exact ⟨rfl, rfl, rfl⟩
  · rfl
  · have hmx := batchAppendLoop_maxChars measure stopOnError outcomes
      (BatchOutput.mk [] (BatchBudget.mk maxChars 0 false false))
    have key : ∀ p : BatchOutput, p.budget.maxChars = maxChars →
        (trimBatchOutput measure p).budget.usedChars ≤ maxChars := by
      intro p hp
      show measure
        (trimItems measure p.budget.maxChars p.items
          (p.budget.truncated, p.budget.truncationMax)).1 ≤ maxChars
      rw [hp]
      exact trimItems_measure_le measure maxChars h1 p.items _
    exact key _ hmx

/-- C4 witness: with the measure `10·|items|` and `max_chars = 15`, the
full two-item run ends with `used_chars ≤ 15`. -/
theorem batch_budget_pop_and_trim_spec_witness :
    (runBatchItems (fun items => 10 * items.length) false 15
      [BatchItemResult.mk "a" CommandStatus.ok none,
       BatchItemResult.mk "b" CommandStatus.ok none]).budget.usedChars ≤ 15 :=
  (batch_budget_pop_and_trim_spec (fun items => 10 * items.length)
    (BatchOutput.mk [] (BatchBudget.mk 15 0 false false))
    (BatchItemResult.mk "a" CommandStatus.ok none) false 15
    [BatchItemResult.mk "a" CommandStatus.ok none,
     BatchItemResult.mk "b" CommandStatus.ok none]
    (by decide) (by decide)).2.2.2

/-- C4 (counterexample to the literal claim): measure `10·|items|`,
`max_chars = 15`, two ok outcomes.  The second item overflows the budget
(20 > 15): it is popped, both truncation flags are set and the run stops —
but because the envelope still holds the first item, NO synthesized "Batch
budget exceeded" error is recorded: every item of the final envelope has
status ok, contradicting the claim that such an error is recorded whenever
the budget is exceeded. -/
theorem batch_budget_no_error_item_counterexample :
    runBatchItems (fun items => 10 * items.length) false 15
      [BatchItemResult.mk "a" CommandStatus.ok none,
       BatchItemResult.mk "b" CommandStatus.ok none]
      = BatchOutput.mk [BatchItemResult.mk "a" CommandStatus.ok none]
          (BatchBudget.mk 15 10 true true)
    ∧ ∀ i ∈ (runBatchItems (fun items => 10 * items.length) false 15
        [BatchItemResult.mk "a" CommandStatus.ok none,
         BatchItemResult.mk "b" CommandStatus.ok none]).items,
        i.status = CommandStatus.ok := by
  have h : runBatchItems (fun items => 10 * items.length) false 15
      [BatchItemResult.mk "a" CommandStatus.ok none,
       BatchItemResult.mk "b" CommandStatus.ok none]
      = BatchOutput.mk [BatchItemResult.mk "a" CommandStatus.ok none]
          (BatchBudget.mk 15 10 true true) := by
    simp [runBatchItems, batchAppendLoop, pushItemOrTruncate, trimBatchOutput, trimItems]
  refine ⟨h, ?_⟩
  rw [h]
  intro i hi
  rw [List.mem_singleton.mp hi]

/-! ## grep_context (`src/crates/mcp-server/src/tools/grep_context.rs`)

The candidate walk of `compute_grep_context_result` (lines 383-466) and
its helpers, over candidate files modelled as `GrepFile`: `size` is the
`std::fs::metadata` length (`none` = metadata error, skipped), `lines` the
file's lines as read by the buffered reader with the trailing `\r`/`\n`
already trimmed (`none` = open/read error, skipped; every use of a read
line first applies `trim_end_matches(['\r','\n'])`).  The compiled regex
is the oracle `regex : String → Bool` (`Regex::is_match` on the trimmed
line).  Candidate collection, cursor validation and cursor re-encoding
precede/follow the loop and are not modelled. -/

/-- A candidate file as seen by the per-file loop. -/
structure GrepFile where
  display : String
  size : Option Nat
  lines : Option (List String)
  deriving DecidableEq, Repr

/-- `GrepContextTruncation`. -/
inductive GrepTruncation where
  | matches
  | hunks
  | chars
  deriving DecidableEq, Repr

/-- `GrepContextHunk` (the fields the loop constructs). -/
structure GrepHunk where
  file : String
  startLine : Nat
  endLine : Nat
  matchLines : List Nat
  content : String
  deriving DecidableEq, Repr

/-- `GrepContextAccumulators` (grep_context.rs lines 70-97). -/
structure GrepAcc where
  hunks : List GrepHunk
  usedChars : Nat
  truncated : Bool
  truncation : Option GrepTruncation
  scannedFiles : Nat
  matchedFiles : Nat
  returnedMatches : Nat
  totalMatches : Nat
  nextCursorState : Option (String × Nat)
  deriving DecidableEq, Repr

/-- `GrepContextAccumulators::new()`. -/
def GrepAcc.empty : GrepAcc := GrepAcc.mk [] 0 false none 0 0 0 0 none

/-- `GrepRange` (grep_context.rs lines 16-20). -/
structure GrepRange where
  startLine : Nat
  endLine : Nat
  matchLines : List Nat
  deriving DecidableEq, Repr

/-- The result of `scan_match_lines_for_file` together with the updated
`total_matches` counter it mutates. -/
structure MatchScanResult where
  matchLines : List Nat
  hitMatchLimit : Bool
  totalMatches : Nat
  deriving DecidableEq, Repr

/-- `scan_match_lines_for_file` (grep_context.rs lines 187-227): collect
every matching line number; count a match toward `total_matches` only from
`file_resume_line` on; stop (and flag the limit) when `total_matches`
reaches `max_matches`. -/
def scanMatchLines (regex : String → Bool) (fileResumeLine maxMatches : Nat) :
    List String → Nat → Nat → List Nat → MatchScanResult
  | [], _, total, found => MatchScanResult.mk found.reverse false total
  | text :: rest, lineNo, total, found =>
    let lineNo' := lineNo + 1
    if regex text then
      let found' := lineNo' :: found
      if fileResumeLine ≤ lineNo' then
        let total' := total + 1
        if maxMatches ≤ total' then MatchScanResult.mk found'.reverse true total'
        else scanMatchLines regex fileResumeLine maxMatches rest lineNo' total' found'
      else scanMatchLines regex fileResumeLine maxMatches rest lineNo' total found'
    else scanMatchLines regex fileResumeLine maxMatches rest lineNo' total found

/-- The merge step of `merge_grep_ranges` (lines 29-43), with the merged
list kept in reverse order (head = the `last_mut` the source mutates). -/
def mergeInto (merged : List GrepRange) (range : GrepRange) : List GrepRange :=
  match merged with
  | [] => [range]
  | last :: rest =>
    if range.startLine ≤ last.endLine + 1 then
      GrepRange.mk last.startLine (max last.endLine range.endLine)
        (last.matchLines ++ range.matchLines) :: rest
    else range :: last :: rest

/-- `merge_grep_ranges` (grep_context.rs lines 22-51): stable sort by
(start, end), merge touching/overlapping ranges, sort and dedup each
merged range's match lines. -/
def mergeGrepRanges (ranges : List GrepRange) : List GrepRange :=
  let sorted := sortByStable (fun a b =>
    ((compare a.startLine b.startLine).then (compare a.endLine b.endLine)) != Ordering.gt) ranges
  let merged := (sorted.foldl mergeInto []).reverse
  merged.map (fun r => GrepRange.mk r.startLine r.endLine
    (dedupConsec (sortByStable (fun a b => decide (a ≤ b)) r.matchLines)))

/-- `build_ranges_from_matches` (grep_context.rs lines 229-242). -/
def buildRangesFromMatches (matchLines : List Nat) (before after : Nat) : List GrepRange :=
  mergeGrepRanges (matchLines.map (fun ln =>
    GrepRange.mk (max (ln - before) 1) (ln + after) [ln]))

/-- The reader state and outcome of one range's content loop inside
`build_hunks_for_file`. -/
structure HunkScanOut where
  remaining : List String
  lineNo : Nat
  content : String
  usedChars : Nat
  endLine : Nat
  stopBudget : Bool
  deriving DecidableEq, Repr

/-- The inner content loop of `build_hunks_for_file` (lines 272-312): the
persistent reader consumes lines (also the first line beyond the range's
end); lines before the range start are skipped; each kept line costs its
char count plus 1 for the joining newline; exceeding `max_chars` stops
with the budget flag (that line consumed but not kept). -/
def hunkScan (maxChars rangeStart rangeEnd : Nat) :
    List String → Nat → String → Nat → Nat → HunkScanOut
  | [], lineNo, content, used, endLine =>
    HunkScanOut.mk [] lineNo content used endLine false
  | text :: rest, lineNo, content, used, endLine =>
    let lineNo' := lineNo + 1
    if lineNo' < rangeStart then
      hunkScan maxChars rangeStart rangeEnd rest lineNo' content used endLine
    else if rangeEnd < lineNo' then
      HunkScanOut.mk rest lineNo' content used endLine false
    else
      let extraChars := if content.isEmpty then text.length else 1 + text.length
      if maxChars < used + extraChars then
        HunkScanOut.mk rest lineNo' content used endLine true
      else
        hunkScan maxChars rangeStart rangeEnd rest lineNo'
          (if content.isEmpty then text else content ++ "\n" ++ text)
          (used + extraChars) lineNo'

/-- `build_hunks_for_file` (grep_context.rs lines 244-345): per range,
clamp the start to the file resume line; skip empty ranges; stop (flagging
hunk truncation and a cursor) at `max_hunks`; read the range's content
through the persistent reader; on a budget stop with empty content return
immediately, otherwise push the hunk (match lines filtered to the covered
span) and on a budget stop record the cursor and return.  The returned
flag is the source's "continue with further files". -/
def buildHunksLoop (displayFile : String) (fileResumeLine maxHunks maxChars : Nat) :
    List GrepRange → List String → Nat → GrepAcc → GrepAcc × Bool
  | [], _, _, acc => (acc, true)
  | range :: restRanges, lines, lineNo, acc =>
    let rangeStart := max range.startLine fileResumeLine
    if range.endLine < rangeStart then
      buildHunksLoop displayFile fileResumeLine maxHunks maxChars restRanges lines lineNo acc
    else if maxHunks ≤ acc.hunks.length then
      ({ acc with truncated := true, truncation := some GrepTruncation.hunks, nextCursorState := some (displayFile, rangeStart) }, false)
    else
      let out := hunkScan maxChars rangeStart range.endLine lines lineNo "" acc.usedChars (rangeStart - 1)
      let acc1 := if out.stopBudget then { acc with truncated := true, truncation := some GrepTruncation.chars } else acc
      if out.stopBudget ∧ out.content.isEmpty then
        ({ acc1 with usedChars := out.usedChars }, false)
      else
        let matchLines := range.matchLines.filter (fun ln => decide (rangeStart ≤ ln) && decide (ln ≤ out.endLine))
        let hunk := GrepHunk.mk displayFile rangeStart out.endLine matchLines out.content
        let acc2 := { acc1 with usedChars := out.usedChars, returnedMatches := acc1.returnedMatches + matchLines.length, hunks := acc1.hunks ++ [hunk] }
        if out.stopBudget then
          ({ acc2 with nextCursorState := some (displayFile, out.endLine + 1) }, false)
        else
          buildHunksLoop displayFile fileResumeLine maxHunks maxChars restRanges out.remaining out.lineNo acc2

/-- The accumulator updates of a matched file (grep_context.rs lines
440-445): count the file and flag match truncation on a hit limit. -/
def grepMatchedAcc (scan : MatchScanResult) (acc : GrepAcc) : GrepAcc :=
  let acc := { acc with matchedFiles := acc.matchedFiles + 1 }
  if scan.hitMatchLimit then { acc with truncated := true, truncation := some GrepTruncation.matches } else acc

/-- The tail of the loop body for a matched file (grep_context.rs lines
440-464): build ranges and hunks; the outer loop stops when the hunk
builder returns `false` or the match limit was hit. -/
def grepMatchedStep (before after maxHunks maxChars : Nat) (display : String)
    (fileResumeLine : Nat) (lines : List String) (scan : MatchScanResult)
    (acc : GrepAcc) : GrepAcc × Bool :=
  let ranges := buildRangesFromMatches scan.matchLines before after
  let r := buildHunksLoop display fileResumeLine maxHunks maxChars ranges lines 0
    (grepMatchedAcc scan acc)
  if r.2 then (if scan.hitMatchLimit then (r.1, false) else (r.1, true)) else (r.1, false)

/-- The body of the `'outer_files` loop for one candidate that passed the
resume gating (grep_context.rs lines 419-464): `scanned_files` increments
FIRST; a metadata error, a size above `MAX_FILE_BYTES = 2_000_000`, a scan
error or an empty match list each `continue` contributing nothing else (no
dedicated skipped counter exists); otherwise run the matched-file tail. -/
def grepFileStep (regex : String → Bool) (before after maxMatches maxHunks maxChars : Nat)
    (resumeFile : Option String) (resumeLine : Nat) (f : GrepFile) (acc : GrepAcc) :
    GrepAcc × Bool :=
  let fileResumeLine := if some f.display = resumeFile then resumeLine else 1
  let acc := { acc with scannedFiles := acc.scannedFiles + 1 }
  match f.size with
  | none => (acc, true)
  | some size =>
    if 2000000 < size then (acc, true)
    else
      match f.lines with
      | none => (acc, true)
      | some lines =>
        let scan := scanMatchLines regex fileResumeLine maxMatches lines 0 acc.totalMatches []
        let acc := { acc with totalMatches := scan.totalMatches }
        if scan.matchLines.isEmpty then (acc, true)
        else grepMatchedStep before after maxHunks maxChars f.display fileResumeLine lines scan acc

/-- The `'outer_files` loop with the `started` resume gating
(grep_context.rs lines 410-418): before the resume file is reached,
candidates are skipped without being scanned. -/
def grepOuterLoop (regex : String → Bool) (before after maxMatches maxHunks maxChars : Nat)
    (resumeFile : Option String) (resumeLine : Nat) :
    List GrepFile → Bool → GrepAcc → GrepAcc
  | [], _, acc => acc
  | f :: rest, started, acc =>
    if started = false ∧ some f.display ≠ resumeFile then
      grepOuterLoop regex before after maxMatches maxHunks maxChars resumeFile resumeLine rest started acc
    else
      let r := grepFileStep regex before after maxMatches maxHunks maxChars resumeFile resumeLine f acc
      if r.2 then
        grepOuterLoop regex before after maxMatches maxHunks maxChars resumeFile resumeLine rest true r.1
      else r.1

/-- The accumulator after the whole candidate walk of
`compute_grep_context_result`: fresh accumulators, `started` iff no resume
file, `resume_line` clamped to at least 1. -/
def computeGrepContext (regex : String → Bool) (before after maxMatches maxHunks maxChars : Nat)
    (resumeFile : Option String) (resumeLine : Nat) (candidates : List GrepFile) : GrepAcc :=
  grepOuterLoop regex before after maxMatches maxHunks maxChars resumeFile (max resumeLine 1)
    candidates resumeFile.isNone GrepAcc.empty

theorem buildHunksLoop_hunks_from (d : String) (frl mh mc : Nat)
    (ranges : List GrepRange) : ∀ (lines : List String) (lineNo : Nat) (acc : GrepAcc),
    ∀ h ∈ (buildHunksLoop d frl mh mc ranges lines lineNo acc).1.hunks,
      h ∈ acc.hunks ∨ h.file = d := by
  induction ranges with
  | nil =>
    intro lines lineNo acc h hh
    exact Or.inl hh
  | cons range rest ih =>
    intro lines lineNo acc h hh
    simp only [buildHunksLoop] at hh
    split at hh
    · exact ih lines lineNo acc h hh
    · split at hh
      · exact Or.inl hh
      · split at hh
        · split at hh
          · exact Or.inl hh
          · exact Or.inl hh
        · split at hh
          · simp only [List.mem_append, List.mem_singleton] at hh
            rcases hh with hh | hh
            · exact Or.inl hh
            · exact Or.inr (by rw [hh])
          · rcases ih _ _ _ h hh with hmem | hfile
            · simp only [List.mem_append, List.mem_singleton] at hmem
              rcases hmem with hmem | hmem
              · exact Or.inl hmem
              · exact Or.inr (by rw [hmem])
            · exact Or.inr hfile

theorem grepMatchedAcc_hunks (scan : MatchScanResult) (acc : GrepAcc) :
    (grepMatchedAcc scan acc).hunks = acc.hunks := by
  simp only [grepMatchedAcc]
  split <;> rfl

theorem grepMatchedStep_hunks_from (before after maxHunks maxChars : Nat) (display : String)
    (fileResumeLine : Nat) (lines : List String) (scan : MatchScanResult) (acc : GrepAcc) :
    ∀ h ∈ (grepMatchedStep before after maxHunks maxChars display fileResumeLine
        lines scan acc).1.hunks,
      h ∈ acc.hunks ∨ h.file = display := by
  intro h hh
  simp only [grepMatchedStep] at hh
  have hb := buildHunksLoop_hunks_from display fileResumeLine maxHunks maxChars
    (buildRangesFromMatches scan.matchLines before after) lines 0 (grepMatchedAcc scan acc) h
  split at hh
  · split at hh
    · rcases hb hh with hmem | hfile
      · exact Or.inl (grepMatchedAcc_hunks scan acc ▸ hmem)
      · exact Or.inr hfile
    · rcases hb hh with hmem | hfile
      · exact Or.inl (grepMatchedAcc_hunks scan acc ▸ hmem)
      · exact Or.inr hfile
  · rcases hb hh with hmem | hfile
    · exact Or.inl (grepMatchedAcc_hunks scan acc ▸ hmem)
    · exact Or.inr hfile

theorem grepFileStep_hunks_from (regex : String → Bool)
    (before after maxMatches maxHunks maxChars : Nat)
    (resumeFile : Option String) (resumeLine : Nat) (f : GrepFile) (acc : GrepAcc) :
    ∀ h ∈ (grepFileStep regex before after maxMatches maxHunks maxChars
        resumeFile resumeLine f acc).1.hunks,
      h ∈ acc.hunks ∨ (h.file = f.display ∧ ∃ n, f.size = some n ∧ n ≤ 2000000) := by
  intro h hh
  simp only [grepFileStep] at hh
  rcases hsz : f.size with _ | size
  · rw [hsz] at hh
    exact Or.inl hh
  · rw [hsz] at hh
    simp only at hh
    by_cases hbig : 2000000 < size
    · rw [if_pos hbig] at hh
      exact Or.inl hh
    · rw [if_neg hbig] at hh
      rcases hlines : f.lines with _ | lines
      · rw [hlines] at hh
        exact Or.inl hh
      · rw [hlines] at hh
        simp only at hh
        by_cases hempty : (scanMatchLines regex
            (if some f.display = resumeFile then resumeLine else 1) maxMatches lines 0
            acc.totalMatches []).matchLines.isEmpty = true
        · rw [if_pos hempty] at hh
          exact Or.inl hh
        · rw [if_neg hempty] at hh
          rcases grepMatchedStep_hunks_from before after maxHunks maxChars f.display
            (if some f.display = resumeFile then resumeLine else 1) lines
            (scanMatchLines regex (if some f.display = resumeFile then resumeLine else 1)
              maxMatches lines 0 acc.totalMatches [])
            { acc with scannedFiles := acc.scannedFiles + 1, totalMatches := (scanMatchLines regex (if some f.display = resumeFile then resumeLine else 1) maxMatches lines 0 acc.totalMatches []).totalMatches } h hh with hmem | hfile
          · exact Or.inl hmem
          · exact Or.inr ⟨hfile, size, rfl, by omega⟩

theorem grepOuterLoop_hunks_from (regex : String → Bool)
    (before after maxMatches maxHunks maxChars : Nat)
    (resumeFile : Option String) (resumeLine : Nat) (candidates : List GrepFile) :
    ∀ (started : Bool) (acc : GrepAcc),
    ∀ h ∈ (grepOuterLoop regex before after maxMatches maxHunks maxChars
        resumeFile resumeLine candidates started acc).hunks,
      h ∈ acc.hunks
      ∨ ∃ g ∈ candidates, h.file = g.display ∧ ∃ n, g.size = some n ∧ n ≤ 2000000 := by
  induction candidates with
  | nil =>
    intro started acc h hh
    exact Or.inl hh
  | cons f rest ih =>
    intro started acc h hh
    simp only [grepOuterLoop] at hh
    split at hh
    · rcases ih started acc h hh with hmem | ⟨g, hg, hrest⟩
      · exact Or.inl hmem
      · exact Or.inr ⟨g, List.mem_cons_of_mem f hg, hrest⟩
    · split at hh
      · rcases ih true _ h hh with hmem | ⟨g, hg, hrest⟩
        · rcases grepFileStep_hunks_from regex before after maxMatches maxHunks maxChars
            resumeFile resumeLine f acc h hmem with hacc | ⟨hfile, hsz⟩
          · exact Or.inl hacc
          · exact Or.inr ⟨f, List.mem_cons_self f rest, hfile, hsz⟩
        · exact Or.inr ⟨g, List.mem_cons_of_mem f hg, hrest⟩
      · rcases grepFileStep_hunks_from regex before after maxMatches maxHunks maxChars
          resumeFile resumeLine f acc h hh with hacc | ⟨hfile, hsz⟩
        · exact Or.inl hacc
        · exact Or.inr ⟨f, List.mem_cons_self f rest, hfile, hsz⟩

/-- C10: a candidate file whose metadata length exceeds
`MAX_FILE_BYTES = 2_000_000` is skipped right after the metadata check —
the step only increments `scanned_files` (every other accumulator,
including the hunks, the match counters and the truncation flags, is
unchanged, and `GrepContextAccumulators` has no skipped-file counter at
all) and the outer loop continues; consequently every hunk of a
`compute_grep_context_result` run comes from a candidate whose size was
known and at most 2,000,000 bytes. -/
theorem grep_context_skips_oversized_files (regex : String → Bool)
    (before after maxMatches maxHunks maxChars : Nat)
    (resumeFile : Option String) (resumeLine : Nat) (f : GrepFile) (acc : GrepAcc)
    (n : Nat) (candidates : List GrepFile)
    (hsize : f.size = some n) (hbig : 2000000 < n) :
    grepFileStep regex before after maxMatches maxHunks maxChars resumeFile resumeLine f acc
      = (GrepAcc.mk acc.hunks acc.usedChars acc.truncated acc.truncation
          (acc.scannedFiles + 1) acc.matchedFiles acc.returnedMatches acc.totalMatches
          acc.nextCursorState, true)
    ∧ ∀ h ∈ (computeGrepContext regex before after maxMatches maxHunks maxChars
        resumeFile resumeLine candidates).hunks,
        ∃ g ∈ candidates, h.file = g.display ∧ ∃ m, g.size = some m ∧ m ≤ 2000000 := by
  constructor
  · simp only [grepFileStep, hsize]
    rw [if_pos hbig]
  · intro h hh
    rcases grepOuterLoop_hunks_from regex before after maxMatches maxHunks maxChars
      resumeFile (max resumeLine 1) candidates resumeFile.isNone GrepAcc.empty h hh with
      hmem | hfound
    · exact absurd hmem (List.not_mem_nil h)
    · exact hfound

/-- C10 witness: a 3,000,000-byte candidate whose single line would match
every regex is skipped with only `scanned_files` going from 0 to 1. -/
theorem grep_context_skips_oversized_files_witness :
    grepFileStep (fun _ => true) 0 0 10 10 100 none 1
      (GrepFile.mk "big.txt" (some 3000000) (some ["hit"])) GrepAcc.empty
      = (GrepAcc.mk [] 0 false none 1 0 0 0 none, true) :=
  (grep_context_skips_oversized_files (fun _ => true) 0 0 10 10 100 none 1
    (GrepFile.mk "big.txt" (some 3000000) (some ["hit"])) GrepAcc.empty 3000000
    [] rfl (by decide)).1

end ContextFinder
